import Mathlib

/-!
Verification of the labeled-tensor metric-helper core
(`brainscore_vision/metric_helpers/xarray_utils.py`).

The embedding models an xarray `DataArray` as `DataArr`: an n-dimensional
integer array given by named dimensions `dims`, a `shape`, the data itself
as a total function from multi-indices to values, a list of coordinates
(the `walk_coords` view: each coordinate has a name, the dimensions it is
attached to, and a flat row-major list of label values), and a list of
named attributes which are themselves `DataArr`s (the nested-metadata
tree).  Numeric values are modelled as `Int`.

Operations are translated from the source: `XarrayRegression`
(fit / predict / _align / _package_prediction), `XarrayCorrelation.__call__`,
`recursive_op`, and `apply_over_dims`.  Python exceptions (assertion
failures, KeyError, TypeError, xarray construction/size errors) are
modelled as `Except Err` values.
-/

/-- Product of a list of naturals (total size of a shape). -/
def prodNat : List Nat → Nat
  | [] => 1
  | n :: ns => n * prodNat ns

/-- Row-major flat index of a multi-index `idx` in a given `shape`. -/
def flatIdx : List Nat → List Nat → Nat
  | _, [] => 0
  | [], _ => 0
  | _ :: ss, i :: is => i * prodNat ss + flatIdx ss is

/-- Row-major multi-index of flat position `j` in `shape`. -/
def unflatIdx : List Nat → Nat → List Nat
  | [], _ => []
  | _ :: ss, j => (j / prodNat ss) :: unflatIdx ss (j % prodNat ss)

/-- Replace the element at position `p` of a list (out of range: unchanged). -/
def setAt : List Nat → Nat → Nat → List Nat
  | [], _, _ => []
  | _ :: xs, 0, v => v :: xs
  | x :: xs, p + 1, v => x :: setAt xs p v

/-- Stable insertion of an element into a sorted list w.r.t. `le`. -/
def insertBy (le : α → α → Bool) (a : α) : List α → List α
  | [] => [a]
  | b :: bs => if le a b then a :: b :: bs else b :: insertBy le a bs

/-- Stable insertion sort w.r.t. `le` (models the argsort used by `sortby`). -/
def sortListBy (le : α → α → Bool) : List α → List α
  | [] => []
  | a :: as => insertBy le a (sortListBy le as)

/-- Lexicographic comparison of two equal-length integer key tuples. -/
def lexLe : List Int → List Int → Bool
  | [], _ => true
  | _ :: _, [] => true
  | a :: as, b :: bs => if a < b then true else if b < a then false else lexLe as bs

/-- Argsort of positions `0..n-1` ordered lexicographically by the key
columns `keys` (each key is a flat list of labels along the sorted axis). -/
def argsortLex (keys : List (List Int)) (n : Nat) : List Nat :=
  sortListBy (fun i j => lexLe (keys.map (fun k => k.getD i 0)) (keys.map (fun k => k.getD j 0)))
    (List.range n)

/-- Reindex a flat row-major value list of shape `shape` along axis
position `p` by the index map `pi` (new position `i` along the axis reads
old position `pi[i]`). -/
def reindexFlatAlong (shape : List Nat) (p : Nat) (pi : List Nat) (vals : List Int) : List Int :=
  (List.range vals.length).map (fun j =>
    let m := unflatIdx shape j
    vals.getD (flatIdx shape (setAt m p (pi.getD (m.getD p 0) 0))) 0)

/-- A coordinate in the `walk_coords` view of a labeled tensor: its name,
the dimensions it is attached to, and its label values as a flat
row-major list. -/
structure Coord where
  name : String
  dims : List String
  values : List Int
deriving DecidableEq, Repr

instance : Inhabited Coord := ⟨{ name := "", dims := [], values := [] }⟩

/-- Labeled tensor: named dims, shape, data as a total function from
multi-indices to values, coordinates, and named attributes which are
themselves labeled tensors. -/
inductive DataArr : Type where
  | mk : List String → List Nat → (List Nat → Int) → List Coord → List (String × DataArr) → DataArr

/-- Dimension names of a labeled tensor. -/
def DataArr.dims : DataArr → List String
  | .mk d _ _ _ _ => d

/-- Shape of a labeled tensor (aligned with `dims`). -/
def DataArr.shape : DataArr → List Nat
  | .mk _ s _ _ _ => s

/-- Data of a labeled tensor as a function from multi-indices to values. -/
def DataArr.data : DataArr → (List Nat → Int)
  | .mk _ _ f _ _ => f

/-- Coordinates of a labeled tensor. -/
def DataArr.coords : DataArr → List Coord
  | .mk _ _ _ c _ => c

/-- Attributes of a labeled tensor (nested labeled tensors). -/
def DataArr.attrs : DataArr → List (String × DataArr)
  | .mk _ _ _ _ a => a

instance : Inhabited DataArr := ⟨.mk [] [] (fun _ => 0) [] []⟩

/-- Size of dimension `d` of `A` (`A.sizes[d]`), if `d` is a dimension. -/
def DataArr.sizeOfDim (A : DataArr) (d : String) : Option Nat :=
  if A.dims.indexOf d < A.shape.length then some (A.shape.getD (A.dims.indexOf d) 0) else none

/-- Look up a coordinate by name (`A.coords[name]`; xarray coordinate
names are unique, the model looks up the first occurrence). -/
def lookupCoord (A : DataArr) (n : String) : Option Coord :=
  A.coords.find? (fun c => c.name = n)

/-- Dict-style update of a coordinate list: replace the entry with the
same name in place, or append a new entry. -/
def updateCoord : List Coord → Coord → List Coord
  | [], c => [c]
  | c' :: cs, c => if c'.name = c.name then c :: cs else c' :: updateCoord cs c

/-- Attribute names of a labeled tensor. -/
def attrNames (A : DataArr) : List String := A.attrs.map (·.1)

/-- Look up an attribute by name. -/
def lookupAttr (A : DataArr) (k : String) : Option DataArr :=
  (A.attrs.find? (fun p => p.1 = k)).map (·.2)

/-- Dict-style update of an attribute list. -/
def updateAttr : List (String × DataArr) → String → DataArr → List (String × DataArr)
  | [], k, v => [(k, v)]
  | p :: ps, k, v => if p.1 = k then (k, v) :: ps else p :: updateAttr ps k v

/-- Replace the attribute list of a tensor wholesale. -/
def DataArr.withAttrs : DataArr → List (String × DataArr) → DataArr
  | .mk d s f c _, a => .mk d s f c a

/-- Set one attribute (`x.attrs[k] = v`). -/
def DataArr.setAttr (A : DataArr) (k : String) (v : DataArr) : DataArr :=
  A.withAttrs (updateAttr A.attrs k v)

/-- Errors: models of the Python exceptions raised by the source
(assertion failures, KeyError/IndexError/TypeError, and xarray
construction or size-conflict ValueErrors). -/
inductive Err where
  | assertionFailed
  | keyError
  | indexError
  | typeError
  | valueError
deriving DecidableEq, Repr

/-- Error-propagating map over a list (models a Python loop in which any
iteration may raise). -/
def mapE (f : α → Except Err β) : List α → Except Err (List β)
  | [] => .ok []
  | a :: as =>
    match f a with
    | .error e => .error e
    | .ok b =>
      match mapE f as with
      | .error e => .error e
      | .ok bs => .ok (b :: bs)

/-- Error-propagating fold over a list. -/
def foldE (f : β → α → Except Err β) : β → List α → Except Err β
  | b, [] => .ok b
  | b, a :: as =>
    match f b a with
    | .error e => .error e
    | .ok b' => foldE f b' as

/-- Core transpose to an explicit new dimension order (assumed to be a
permutation of the old one): dims and shape are permuted and each data
access is routed through the corresponding old multi-index.  Coordinates
and attributes are untouched (xarray `transpose` does not reorder
coordinate variables). -/
def transposeCore (A : DataArr) (order : List String) : DataArr :=
  .mk order
    (order.map (fun dn => A.shape.getD (A.dims.indexOf dn) 0))
    (fun idx => A.data (A.dims.map (fun dn => idx.getD (order.indexOf dn) 0)))
    A.coords A.attrs

/-- `assembly.transpose(*order)`: requires `order` to be a permutation of
the tensor's dims. -/
def transposeE (A : DataArr) (order : List String) : Except Err DataArr :=
  if order.Perm A.dims then .ok (transposeCore A order) else .error .valueError

/-- `asm.transpose(*lead, ...)`: the listed dims first (in the given
order), the remaining dims after them in their original order. -/
def transposeLeadingE (A : DataArr) (lead : List String) : Except Err DataArr :=
  if lead.all (fun d => d ∈ A.dims) then
    .ok (transposeCore A (lead ++ A.dims.filter (fun d => d ∉ lead)))
  else .error .valueError

/-- Core positional selection `A.isel({d: i})`: dimension `d` is dropped,
data accesses insert `i` back at its position, and every coordinate
attached to `d` loses that dimension and is sliced accordingly (a
coordinate attached only to `d` becomes a scalar coordinate).  Attributes
are carried over unchanged (xarray `isel` keeps `attrs`). -/
def iselCore (A : DataArr) (d : String) (i : Nat) : DataArr :=
  let p := A.dims.indexOf d
  .mk (A.dims.eraseIdx p) (A.shape.eraseIdx p)
    (fun idx => A.data (idx.insertIdx p i))
    (A.coords.map (fun c =>
      if d ∈ c.dims then
        let q := c.dims.indexOf d
        let cshape := c.dims.map (fun dn => A.shape.getD (A.dims.indexOf dn) 0)
        { name := c.name, dims := c.dims.eraseIdx q,
          values := (List.range (prodNat (cshape.eraseIdx q))).map (fun j =>
            c.values.getD (flatIdx cshape ((unflatIdx (cshape.eraseIdx q) j).insertIdx q i)) 0) }
      else c))
    A.attrs

/-- Checked `isel`: the selected name must be a dimension. -/
def iselE (A : DataArr) (d : String) (i : Nat) : Except Err DataArr :=
  if d ∈ A.dims then .ok (iselCore A d i) else .error .valueError

/-- Reorder a tensor along dimension `d` by the index map `pi` (new
position `i` along `d` reads old position `pi[i]`); every coordinate
attached to `d` is reordered the same way. -/
def sortAlongDim (A : DataArr) (d : String) (pi : List Nat) : DataArr :=
  let p := A.dims.indexOf d
  .mk A.dims A.shape
    (fun idx => A.data (setAt idx p (pi.getD (idx.getD p 0) 0)))
    (A.coords.map (fun c =>
      if d ∈ c.dims then
        let cshape := c.dims.map (fun dn => A.shape.getD (A.dims.indexOf dn) 0)
        { name := c.name, dims := c.dims,
          values := reindexFlatAlong cshape (c.dims.indexOf d) pi c.values }
      else c))
    A.attrs

/-- Remove duplicates keeping first occurrences. -/
def dedupFirst : List String → List String
  | [] => []
  | x :: xs => x :: (dedupFirst xs).filter (fun y => y ≠ x)

/-- `assembly.sortby(names)`: each named coordinate must exist and be
one-dimensional; the keys are grouped by the dimension they are attached
to and each such dimension is reordered by a stable lexicographic argsort
of its keys, first-listed key primary. -/
def sortByCoordsE (A : DataArr) (names : List String) : Except Err DataArr := do
  let cs ← mapE (fun n =>
    match lookupCoord A n with
    | some c => if c.dims.length = 1 then .ok c else .error .valueError
    | none => .error .keyError) names
  let ds := dedupFirst (cs.map (fun c => c.dims.headD ""))
  .ok (ds.foldl (fun acc d =>
    let keys := (cs.filter (fun c => c.dims.headD "" = d)).map (·.values)
    let n := (keys.headD []).length
    sortAlongDim acc d (argsortLex keys n)) A)

/-- `x.expand_dims(d)`: prepend a new dimension of size 1; fails if the
dimension already exists. -/
def expandDimsE (A : DataArr) (d : String) : Except Err DataArr :=
  if d ∈ A.dims then .error .valueError
  else .ok (.mk (d :: A.dims) (1 :: A.shape)
    (fun idx => A.data idx.tail) A.coords A.attrs)

/-- Concatenation of the coordinate lists for `xr.concat(parts, dim=d)`
when `d` is a new dimension: iterate the first part's coordinates; a
coordinate identical in every part is kept as is, a coordinate present in
every part with the same dims but differing values is stacked along `d`,
anything else is dropped. -/
def concatCoords (parts : List DataArr) (d : String) : List Coord :=
  (parts.headD default).coords.filterMap (fun c =>
    if parts.all (fun p => lookupCoord p c.name = some c) then some c
    else if parts.all (fun p => match lookupCoord p c.name with
                                | some c' => c'.dims = c.dims
                                | none => false) then
      some { name := c.name, dims := d :: c.dims,
             values := parts.flatMap (fun p => (lookupCoord p c.name).getD default |>.values) }
    else none)

/-- Locate the part and local offset for flat position `i` along the
concatenated leading dimension, given the parts' leading sizes. -/
def concatPick : List Nat → Nat → Nat × Nat
  | [], i => (0, i)
  | s :: ss, i =>
    if i < s then (0, i)
    else
      let r := concatPick ss (i - s)
      (r.1 + 1, r.2)

/-- `xr.concat(parts, dim=d)`.  Two cases are modelled, matching the two
uses in the source: `d` is a dimension of none of the parts (a new
leading dimension of size `parts.length` is created), or `d` is the
leading dimension of every part (the parts are concatenated along it).
Attributes are taken from the first part (`combine_attrs='override'`). -/
def concatE (parts : List DataArr) (d : String) : Except Err DataArr :=
  match parts with
  | [] => .error .valueError
  | p0 :: _ =>
    if parts.all (fun p => d ∉ p.dims) then
      .ok (.mk (d :: p0.dims) (parts.length :: p0.shape)
        (fun idx => ((parts.getD (idx.headD 0) default).data) idx.tail)
        (concatCoords parts d) p0.attrs)
    else if parts.all (fun p => p.dims.headD "" = d ∧ p.dims ≠ []) then
      let sizes := parts.map (fun p => p.shape.headD 0)
      .ok (.mk p0.dims ((sizes.foldl (· + ·) 0) :: p0.shape.tail)
        (fun idx =>
          let pk := concatPick sizes (idx.headD 0)
          ((parts.getD pk.1 default).data) (pk.2 :: idx.tail))
        (concatCoords parts d) p0.attrs)
    else .error .valueError

/-- Coordinate assignment `A.coords[name] = values` along dimension `d`
(the use sites assign a one-dimensional coordinate along `d`): the value
length must match the size of `d`, otherwise xarray raises a conflicting
sizes error. -/
def setCoordCore (A : DataArr) (name : String) (d : String) (values : List Int) : DataArr :=
  .mk A.dims A.shape A.data
    (updateCoord A.coords { name := name, dims := [d], values := values }) A.attrs

/-- Checked coordinate assignment (see `setCoordCore`): the value length
must match the size of `d`, otherwise xarray raises a conflicting sizes
error. -/
def setCoordE (A : DataArr) (name : String) (d : String) (values : List Int) :
    Except Err DataArr :=
  if A.sizeOfDim d = some values.length then
    .ok (setCoordCore A name d values)
  else .error .valueError

/-- Construction of a labeled tensor from a raw array, a coordinate
mapping and a dims list (`NeuroidAssembly(values, coords=coords,
dims=dims)` / `Score(values, coords=..., dims=...)`): the dims must be
distinct and match the array rank, and every coordinate must be attached
to known dims with a value list of the matching total size. -/
def mkAssemblyE (shape : List Nat) (f : List Nat → Int) (coords : List Coord)
    (dims : List String) : Except Err DataArr :=
  if dims.Nodup ∧ shape.length = dims.length ∧
      coords.all (fun c =>
        c.dims.all (fun dn => dn ∈ dims) ∧
        c.values.length = prodNat (c.dims.map (fun dn => shape.getD (dims.indexOf dn) 0))) then
    .ok (.mk dims shape f coords [])
  else .error .valueError

/-- `prediction.stack(**{newDim: [level]})` with a single level: the
`level` dimension is removed, the stacked dimension `newDim` is appended
at the end (xarray moves stacked dimensions last), data accesses are
rerouted accordingly, and every coordinate attached to `level` is
re-attached to `newDim` (which is what `walk_coords` reports: the
MultiIndex itself is invisible, only its level is). -/
def stackSingleE (A : DataArr) (newDim : String) (level : String) : Except Err DataArr :=
  if level ∈ A.dims ∧ newDim ∉ A.dims then
    let order := A.dims.erase level ++ [level]
    let B := transposeCore A order
    .ok (.mk (A.dims.erase level ++ [newDim]) B.shape B.data
      (A.coords.map (fun c =>
        if level ∈ c.dims then
          { name := c.name, dims := c.dims.map (fun dn => if dn = level then newDim else dn),
            values := c.values }
        else c))
      A.attrs)
  else .error .valueError

/-- Parameters of an `XarrayRegression` adapter: the expected dims, the
neuroid dimension name, the neuroid coordinate name (stored by
`__init__` but unused by fit/predict) and the stimulus coordinate name.
The wrapped regression strategy itself is opaque and passed separately. -/
structure XRParams where
  expectedDims : List String
  neuroidDim : String
  neuroidCoord : String
  stimulusCoord : String

/-- The captured `_target_neuroid_values` mapping: coordinate name to the
captured label values, in capture (coordinate walk) order. -/
abbrev Capture := List (String × List Int)

/-- `XarrayRegression._align`: asserts that the set of the tensor's dims
equals the set of expected dims (order-independent), then transposes to
the expected order. -/
def alignE (ps : XRParams) (A : DataArr) : Except Err DataArr :=
  if A.dims.all (fun d => d ∈ ps.expectedDims) ∧ ps.expectedDims.all (fun d => d ∈ A.dims) then
    .ok (transposeCore A ps.expectedDims)
  else .error .assertionFailed

/-- The coordinate-capture loop of `XarrayRegression.fit`: walk the
target's coordinates; for each coordinate attached to the neuroid
dimension, assert it is attached to exactly that one dimension and record
its name and values. -/
def fitCapture (nd : String) (target : DataArr) : Except Err Capture :=
  foldE (fun acc c =>
    if nd ∈ c.dims then
      if c.dims = [nd] then .ok (acc ++ [(c.name, c.values)])
      else .error .assertionFailed
    else .ok acc) [] target.coords

/-- `XarrayRegression.fit`: align source and target, sort both by the
stimulus coordinate, delegate to the wrapped strategy (opaque, modelled
as a no-op), then capture the target's neuroid coordinates, replacing any
previously captured state (`prior` is discarded). -/
def fitE (ps : XRParams) (_prior : Option Capture) (source target : DataArr) :
    Except Err Capture := do
  let s1 ← alignE ps source
  let t1 ← alignE ps target
  let _s2 ← sortByCoordsE s1 [ps.stimulusCoord]
  let t2 ← sortByCoordsE t1 [ps.stimulusCoord]
  fitCapture ps.neuroidDim t2

/-- A raw prediction array as returned by the wrapped strategy's
`predict`: a shape and the values. -/
structure RawArray where
  shape : List Nat
  data : List Nat → Int

/-- `XarrayRegression._package_prediction`: copy every source coordinate
not attached to exactly the neuroid dimension; if exactly one neuroid
coordinate was captured, rename the neuroid dimension to that
coordinate's name; attach every captured coordinate to the (possibly
renamed) neuroid dimension; construct the assembly; in the single-capture
case stack the renamed dimension back into the neuroid dimension name.
Called with the state `None` (never fitted), Python fails with a
`TypeError` at `len(None)`. -/
def packagePrediction (ps : XRParams) (st : Option Capture) (raw : RawArray)
    (source : DataArr) : Except Err DataArr :=
  match st with
  | none => .error .typeError
  | some tvals =>
    let coords0 := source.coords.filter (fun c => ¬ (c.dims = [ps.neuroidDim]))
    let nld : Option String :=
      if tvals.length = 1 then some (tvals.headD ("", [])).1 else none
    let dims1 :=
      match nld with
      | some l => source.dims.map (fun dim => if dim = ps.neuroidDim then l else dim)
      | none => source.dims
    let coords1 := tvals.foldl (fun cs tv =>
      updateCoord cs { name := tv.1, dims := [nld.getD ps.neuroidDim], values := tv.2 }) coords0
    match mkAssemblyE raw.shape raw.data coords1 dims1 with
    | .error e => .error e
    | .ok pred =>
      match nld with
      | some l => stackSingleE pred ps.neuroidDim l
      | none => .ok pred

/-- `XarrayRegression.predict`: align the source, delegate to the wrapped
strategy's predict (opaque, passed as `predictFn`), then package the raw
prediction. -/
def predictE (ps : XRParams) (st : Option Capture) (predictFn : DataArr → RawArray)
    (source : DataArr) : Except Err DataArr := do
  let s1 ← alignE ps source
  packagePrediction ps st (predictFn s1) s1

/-- `XarrayCorrelation.__call__`: sort both tensors by the correlation
coordinate and the neuroid coordinate; assert the two coordinates agree
pointwise between prediction and target; assert the neuroid coordinate is
attached to exactly one dimension; apply the wrapped comparison strategy
to the pair of slices at every index of that dimension, keeping only the
first component of each returned pair; package the collected statistics
into a Score carrying exactly the target coordinates attached to exactly
the collapsed dimension. -/
def xarrayCorrelationE (corr : DataArr → DataArr → Int × Int)
    (correlationCoord neuroidCoord : String)
    (prediction target : DataArr) : Except Err DataArr := do
  let p ← sortByCoordsE prediction [correlationCoord, neuroidCoord]
  let t ← sortByCoordsE target [correlationCoord, neuroidCoord]
  match lookupCoord p correlationCoord, lookupCoord t correlationCoord with
  | some pc, some tc =>
    if pc.values = tc.values then
      match lookupCoord p neuroidCoord, lookupCoord t neuroidCoord with
      | some pn, some tn =>
        if pn.values = tn.values then
          if tn.dims.length = 1 then do
            let correlations ← mapE (fun i => do
              let targetNeuroids ← iselE t (tn.dims.headD "") i
              let predictionNeuroids ← iselE p (tn.dims.headD "") i
              Except.ok (corr targetNeuroids predictionNeuroids).1)
              (List.range tn.values.length)
            mkAssemblyE [correlations.length] (fun idx => correlations.getD (idx.headD 0) 0)
              (t.coords.filter (fun c => c.dims = tn.dims)) tn.dims
          else .error .assertionFailed
        else .error .assertionFailed
      | _, _ => .error .keyError
    else .error .assertionFailed
  | _, _ => .error .keyError

mutual

/-- `recursive_op` over a non-empty operand list, with the first operand
explicit (recursion is on the first operand's attribute tree): apply `op`
to the operands, then walk the first operand's attributes in order; for
each attribute name look the same name up in every operand (KeyError if
missing), recurse on the looked-up sub-tensors, and attach each result to
the output under the same name (`val.attrs[attr] = ...`).  The
`isinstance(attr_val, xr.DataArray)` guard is always true in this model,
where attribute values are labeled tensors. -/
def recursiveOpAux (op : List DataArr → DataArr) (a0 : DataArr) (arrs : List DataArr) :
    Except Err DataArr :=
  match recAttrs op a0.attrs arrs with
  | .error e => .error e
  | .ok rs => .ok (rs.foldl (fun v kr => v.setAttr kr.1 kr.2) (op arrs))
termination_by sizeOf a0
decreasing_by
  cases a0
  simp [DataArr.attrs]

/-- The attribute loop of `recursive_op`: walk the first operand's
attribute list in order, looking each name up in every operand and
recursing. -/
def recAttrs (op : List DataArr → DataArr) :
    List (String × DataArr) → List DataArr → Except Err (List (String × DataArr))
  | [], _ => .ok []
  | (k, w) :: rest, arrs =>
    match mapE (fun arr => match lookupAttr arr k with
                           | some x => .ok x
                           | none => .error Err.keyError) arrs with
    | .error e => .error e
    | .ok attrArrs =>
      match recursiveOpAux op w attrArrs with
      | .error e => .error e
      | .ok r =>
        match recAttrs op rest arrs with
        | .error e => .error e
        | .ok rs => .ok ((k, r) :: rs)
termination_by l _ => sizeOf l
decreasing_by
  all_goals simp only [List.cons.sizeOf_spec, Prod.mk.sizeOf_spec]
  all_goals omega

end

/-- `recursive_op(*arrs, op=op)`: with no operands, Python fails at
`arrs[0]` with an IndexError. -/
def recursiveOpE (op : List DataArr → DataArr) (arrs : List DataArr) : Except Err DataArr :=
  match arrs with
  | [] => .error .indexError
  | a0 :: _ => recursiveOpAux op a0 arrs

mutual

/-- Completeness of the first operand's attribute spine: every attribute
name of the first operand is present in every operand, recursively under
the looked-up sub-tensors.  This is exactly the condition under which
`recursive_op` succeeds. -/
def spineOk : DataArr → List DataArr → Bool
  | a0, arrs => spineAttrs a0.attrs arrs
termination_by a0 _ => sizeOf a0
decreasing_by
  cases a0
  simp [DataArr.attrs]

/-- The attribute-list form of `spineOk`. -/
def spineAttrs : List (String × DataArr) → List DataArr → Bool
  | [], _ => true
  | (k, w) :: rest, arrs =>
    match mapE (fun arr => match lookupAttr arr k with
                           | some x => .ok x
                           | none => .error Err.keyError) arrs with
    | .error _ => false
    | .ok attrArrs => spineOk w attrArrs && spineAttrs rest arrs
termination_by l _ => sizeOf l
decreasing_by
  all_goals simp only [List.cons.sizeOf_spec, Prod.mk.sizeOf_spec]
  all_goals omega

end

/-- `attrs.setdefault(k, []).append(ev)`: append `ev` to the list held
under key `k`, creating the entry at the end if the key is new. -/
def addEntry (acc2 : List (String × List DataArr)) (k : String) (ev : DataArr) :
    List (String × List DataArr) :=
  match acc2.find? (fun p => p.1 = k) with
  | some _ => acc2.map (fun p => if p.1 = k then (p.1, p.2 ++ [ev]) else p)
  | none => acc2 ++ [(k, [ev])]

/-- Collect the expanded attribute lists of the surviving per-index
results, in first-seen key order: for each survivor, for each of its
attributes, `expand_dims(dim)` the attribute tensor and append it to that
key's list (`attrs.setdefault(k, []).append(v.expand_dims(dim))`). -/
def collectAttrsE (dim : String) (survivors : List DataArr) :
    Except Err (List (String × List DataArr)) :=
  foldE (fun acc arr =>
    foldE (fun acc2 kv => do
      let ev ← expandDimsE kv.2 dim
      .ok (addEntry acc2 kv.1 ev)) acc arr.attrs)
    [] survivors

/-- `asms[0].coords[dim]`: look the coordinate named `dim` up, KeyError
if absent. -/
def getCoordE (A : DataArr) (n : String) : Except Err Coord :=
  match lookupCoord A n with
  | some c => .ok c
  | none => .error .keyError

/-- The reassembly step of `apply_helper` at one level: drop the `None`
results, collect and expand the survivors' attributes, return `None` if
nothing survived, otherwise concatenate the survivors along `dim`,
concatenate each attribute list along `dim`, re-attach the level's
original coordinate (`asms[0].coords[dim]`) to the concatenated tensor
and to each concatenated attribute, and attach the attributes. -/
def assembleLevel (dim : String) (asm0 : DataArr) (results : List (Option DataArr)) :
    Except Err (Option DataArr) := do
  let survivors := results.filterMap id
  let attrsLists ← collectAttrsE dim survivors
  if survivors.isEmpty then
    .ok none
  else do
    let xarr ← concatE survivors dim
    let cattrs ← mapE (fun kv => do
      let cv ← concatE kv.2 dim
      .ok (kv.1, cv)) attrsLists
    let c0 ← getCoordE asm0 dim
    let xarr ← setCoordE xarr dim dim c0.values
    let xarr ← foldE (fun (x : DataArr) kv => do
      let cv ← setCoordE kv.2 dim dim c0.values
      .ok (x.setAttr kv.1 cv)) xarr cattrs
    .ok (some xarr)

/-- `apply_helper(sizes, dims, *asms)`: at the innermost level, apply the
callable to the tuple of slices at every index (the parallel dispatch of
the source preserves index order in the collected results); otherwise
recurse into the remaining dims at every index of the current dim; then
reassemble the per-index results. -/
def applyHelper (f : List DataArr → Option DataArr) :
    List Nat → List String → List DataArr → Except Err (Option DataArr)
  | size :: rsizes, dim :: rdims, asms => do
    let results ←
      if rsizes.isEmpty then
        mapE (fun s => do
          let slices ← mapE (fun asm => iselE asm dim s) asms
          .ok (f slices)) (List.range size)
      else
        mapE (fun s => do
          let sliced ← mapE (fun asm => iselE asm dim s) asms
          applyHelper f rsizes rdims sliced) (List.range size)
    assembleLevel dim (asms.headD default) results
  | _, _, _ => .error .indexError

/-- `apply_over_dims(callable, *asms, dims=dims)`: transpose every input
so the walked dims lead, read the walked sizes off the first input, and
run the recursive helper.  (`njobs` only bounds the worker pool; the
collected results are in index order either way.) -/
def applyOverDims (f : List DataArr → Option DataArr) (asms : List DataArr)
    (dims : List String) : Except Err (Option DataArr) := do
  let asms ← mapE (fun a => transposeLeadingE a dims) asms
  match asms with
  | [] => .error .indexError
  | a0 :: _ => do
    let sizes ← mapE (fun d =>
      match a0.sizeOfDim d with
      | some n => .ok n
      | none => .error Err.keyError) dims
    applyHelper f sizes dims asms

theorem exBind_ok_iff {α β : Type _} {x : Except Err α} {f : α → Except Err β} {b : β} :
    (x >>= f) = .ok b ↔ ∃ a, x = .ok a ∧ f a = .ok b := by
  cases x with
  | error e => simp [Bind.bind, Except.bind]
  | ok a => simp [Bind.bind, Except.bind]

theorem exBind_ok {α β : Type _} {x : Except Err α} {f : α → Except Err β} {a : α}
    (h : x = .ok a) : (x >>= f) = f a := by
  subst h; rfl

theorem exBind_isOk {α β : Type _} {x : Except Err α} {f : α → Except Err β} {b : β}
    (h : (x >>= f) = .ok b) : ∃ a, x = .ok a := by
  rcases exBind_ok_iff.mp h with ⟨a, ha, _⟩
  exact ⟨a, ha⟩

theorem mapE_ok_length {α β : Type _} {f : α → Except Err β} :
    ∀ {l : List α} {bs : List β}, mapE f l = .ok bs → bs.length = l.length := by
  intro l
  induction l with
  | nil => intro bs h; simp [mapE] at h; simp [← h]
  | cons a as ih =>
    intro bs h
    simp only [mapE] at h
    cases hf : f a with
    | error e => rw [hf] at h; exact absurd h (by simp)
    | ok b =>
      rw [hf] at h
      cases hm : mapE f as with
      | error e => rw [hm] at h; exact absurd h (by simp)
      | ok bs' =>
        rw [hm] at h
        cases h
        simp [ih hm]

theorem mapE_ok_get {α β : Type _} {f : α → Except Err β} :
    ∀ {l : List α} {bs : List β}, mapE f l = .ok bs →
      ∀ i db da, i < l.length → f (l.getD i da) = .ok (bs.getD i db) := by
  intro l
  induction l with
  | nil => intro bs _ i _ _ hi; exact absurd hi (by simp)
  | cons a as ih =>
    intro bs h i db da hi
    simp only [mapE] at h
    cases hf : f a with
    | error e => rw [hf] at h; exact absurd h (by simp)
    | ok b =>
      rw [hf] at h
      cases hm : mapE f as with
      | error e => rw [hm] at h; exact absurd h (by simp)
      | ok bs' =>
        rw [hm] at h
        cases h
        cases i with
        | zero => simpa using hf
        | succ j =>
          simp only [List.getD_cons_succ]
          exact ih hm j db da (by simpa using hi)

theorem mapE_ok_of_all_ok {α β : Type _} {f : α → Except Err β} {g : α → β} :
    ∀ {l : List α}, (∀ a ∈ l, f a = .ok (g a)) → mapE f l = .ok (l.map g) := by
  intro l
  induction l with
  | nil => intro _; simp [mapE]
  | cons a as ih =>
    intro h
    simp only [mapE, h a (by simp), ih (fun x hx => h x (by simp [hx])), List.map_cons]

theorem mapE_error_of_mem {α β : Type _} {f : α → Except Err β} :
    ∀ {l : List α} {bs : List β}, mapE f l = .ok bs → ∀ a ∈ l, ∃ b, f a = .ok b := by
  intro l
  induction l with
  | nil => intro bs _ a ha; exact absurd ha (by simp)
  | cons x xs ih =>
    intro bs h a ha
    simp only [mapE] at h
    cases hf : f x with
    | error e => rw [hf] at h; exact absurd h (by simp)
    | ok b =>
      rw [hf] at h
      cases hm : mapE f xs with
      | error e => rw [hm] at h; exact absurd h (by simp)
      | ok bs' =>
        rcases List.mem_cons.mp ha with rfl | ha'
        · exact ⟨b, hf⟩
        · exact ih hm a ha'

theorem map_getD_indexOf_eq {α β : Type _} [DecidableEq α] :
    ∀ (l : List α) (m : List β) (d : β), l.Nodup → m.length = l.length →
      l.map (fun x => m.getD (l.indexOf x) d) = m := by
  intro l
  induction l with
  | nil => intro m d _ hm; simp at hm; simp [hm]
  | cons a as ih =>
    intro m d hnd hm
    cases m with
    | nil => simp at hm
    | cons b bs =>
      simp only [List.map_cons, List.indexOf_cons_self, List.getD_cons_zero, List.cons.injEq,
        true_and]
      have ha : a ∉ as := (List.nodup_cons.mp hnd).1
      have : as.map (fun x => (b :: bs).getD ((a :: as).indexOf x) d)
           = as.map (fun x => bs.getD (as.indexOf x) d) := by
        apply List.map_congr_left
        intro x hx
        have hxa : x ≠ a := fun h => ha (h ▸ hx)
        rw [List.indexOf_cons_ne _ (Ne.symm hxa)]
        simp
      rw [this]
      exact ih bs d (List.nodup_cons.mp hnd).2 (by simpa using hm)

theorem getD_map_indexOf {α β : Type _} [DecidableEq α] :
    ∀ (l : List α) (g : α → β) (x : α) (d : β), x ∈ l →
      (l.map g).getD (l.indexOf x) d = g x := by
  intro l
  induction l with
  | nil => intro g x d hx; exact absurd hx (by simp)
  | cons a as ih =>
    intro g x d hx
    by_cases hxa : x = a
    · subst hxa; simp
    · rw [List.indexOf_cons_ne _ (Ne.symm hxa)]
      simp only [List.map_cons, List.getD_cons_succ]
      exact ih g x d (by rcases List.mem_cons.mp hx with h | h; exact absurd h hxa; exact h)

theorem sortAlongDim_coords (A : DataArr) (d : String) (pi : List Nat) :
    (sortAlongDim A d pi).coords = A.coords.map (fun c =>
      if d ∈ c.dims then
        { name := c.name, dims := c.dims,
          values := reindexFlatAlong
            (c.dims.map (fun dn => A.shape.getD (A.dims.indexOf dn) 0))
            (c.dims.indexOf d) pi c.values }
      else c) := by
  cases A; rfl

theorem exists_coord_sortAlongDim {P : String → List String → Prop} (A : DataArr)
    (d : String) (pi : List Nat) :
    (∃ c ∈ (sortAlongDim A d pi).coords, P c.name c.dims) ↔
      ∃ c ∈ A.coords, P c.name c.dims := by
  rw [sortAlongDim_coords]
  constructor
  · rintro ⟨c, hc, hp⟩
    rcases List.mem_map.mp hc with ⟨c', hc', rfl⟩
    refine ⟨c', hc', ?_⟩
    by_cases hd : d ∈ c'.dims <;> simp [hd] at hp ⊢ <;> exact hp
  · rintro ⟨c, hc, hp⟩
    by_cases hd : d ∈ c.dims
    · exact ⟨_, List.mem_map.mpr ⟨c, hc, rfl⟩, by simp [hd]; exact hp⟩
    · exact ⟨_, List.mem_map.mpr ⟨c, hc, rfl⟩, by simp [hd]; exact hp⟩

theorem exists_coord_foldl_sortAlong {P : String → List String → Prop}
    (step : String → List Nat) :
    ∀ (ds : List String) (A : DataArr),
      (∃ c ∈ (ds.foldl (fun acc d => sortAlongDim acc d (step d)) A).coords, P c.name c.dims) ↔
        ∃ c ∈ A.coords, P c.name c.dims := by
  intro ds
  induction ds with
  | nil => intro A; simp
  | cons d ds ih =>
    intro A
    simpa [List.foldl_cons] using
      (ih (sortAlongDim A d (step d))).trans (exists_coord_sortAlongDim A d (step d))

theorem sortByCoordsE_exists_coord {P : String → List String → Prop}
    {A B : DataArr} {names : List String} (h : sortByCoordsE A names = .ok B) :
    (∃ c ∈ B.coords, P c.name c.dims) ↔ ∃ c ∈ A.coords, P c.name c.dims := by
  unfold sortByCoordsE at h
  rcases exBind_ok_iff.mp h with ⟨cs, _, hfold⟩
  simp only [Except.ok.injEq] at hfold
  rw [← hfold]
  exact exists_coord_foldl_sortAlong _ _ A

theorem fitCapture_go_error_iff (nd : String) :
    ∀ (cs : List Coord) (acc : Capture),
      (∃ e, foldE (fun acc c =>
        if nd ∈ c.dims then
          if c.dims = [nd] then Except.ok (acc ++ [(c.name, c.values)])
          else Except.error Err.assertionFailed
        else Except.ok acc) acc cs = .error e) ↔
      ∃ c ∈ cs, nd ∈ c.dims ∧ c.dims ≠ [nd] := by
  intro cs
  induction cs with
  | nil => intro acc; simp [foldE]
  | cons c cs ih =>
    intro acc
    simp only [foldE]
    by_cases h1 : nd ∈ c.dims
    · by_cases h2 : c.dims = [nd]
      · rw [if_pos h1, if_pos h2]
        simp only []
        rw [ih]
        constructor
        · rintro ⟨c', hc', hp⟩; exact ⟨c', by simp [hc'], hp⟩
        · rintro ⟨c', hc', hp⟩
          rcases List.mem_cons.mp hc' with rfl | hm
          · exact absurd h2 hp.2
          · exact ⟨c', hm, hp⟩
      · rw [if_pos h1, if_neg h2]
        constructor
        · intro _; exact ⟨c, by simp, h1, h2⟩
        · intro _; exact ⟨Err.assertionFailed, rfl⟩
    · rw [if_neg h1]
      simp only []
      rw [ih]
      constructor
      · rintro ⟨c', hc', hp⟩; exact ⟨c', by simp [hc'], hp⟩
      · rintro ⟨c', hc', hp⟩
        rcases List.mem_cons.mp hc' with rfl | hm
        · exact absurd hp.1 h1
        · exact ⟨c', hm, hp⟩

theorem fitCapture_error_iff (nd : String) (target : DataArr) :
    (∃ e, fitCapture nd target = .error e) ↔
      ∃ c ∈ target.coords, nd ∈ c.dims ∧ c.dims ≠ [nd] := by
  unfold fitCapture
  exact fitCapture_go_error_iff nd target.coords []

theorem nodup_ne_singleton_iff {l : List String} {a : String}
    (hnd : l.Nodup) (ha : a ∈ l) : l ≠ [a] ↔ ∃ x ∈ l, x ≠ a := by
  constructor
  · intro hne
    by_contra hall
    push_neg at hall
    apply hne
    cases l with
    | nil => exact absurd ha (by simp)
    | cons b bs =>
      have hb : b = a := hall b (by simp)
      subst hb
      cases bs with
      | nil => rfl
      | cons c cs =>
        have hc : c = b := hall c (by simp)
        subst hc
        simp at hnd
  · rintro ⟨x, hx, hxa⟩ rfl
    simp at hx
    exact hxa hx

theorem fitCapture_go_ok (nd : String) :
    ∀ (cs : List Coord) (acc cap : Capture),
      foldE (fun acc c =>
        if nd ∈ c.dims then
          if c.dims = [nd] then Except.ok (acc ++ [(c.name, c.values)])
          else Except.error Err.assertionFailed
        else Except.ok acc) acc cs = .ok cap →
      cap = acc ++ (cs.filter (fun c => c.dims = [nd])).map (fun c => (c.name, c.values)) := by
  intro cs
  induction cs with
  | nil => intro acc cap h; simp [foldE] at h; simp [← h]
  | cons c cs ih =>
    intro acc cap h
    simp only [foldE] at h
    by_cases h1 : nd ∈ c.dims
    · by_cases h2 : c.dims = [nd]
      · rw [if_pos h1, if_pos h2] at h
        simp only [] at h
        have := ih _ _ h
        rw [this]
        simp [List.filter_cons, h2]
      · rw [if_pos h1, if_neg h2] at h
        exact absurd h (by simp)
    · rw [if_neg h1] at h
      simp only [] at h
      have := ih _ _ h
      rw [this]
      have h2 : ¬ (c.dims = [nd]) := fun hc => h1 (hc ▸ (by simp))
      simp [List.filter_cons, h2]

theorem fitCapture_ok (nd : String) (target : DataArr) (cap : Capture)
    (h : fitCapture nd target = .ok cap) :
    cap = (target.coords.filter (fun c => c.dims = [nd])).map (fun c => (c.name, c.values)) := by
  unfold fitCapture at h
  simpa using fitCapture_go_ok nd target.coords [] cap h

theorem alignE_ok {ps : XRParams} {A B : DataArr} (h : alignE ps A = .ok B) :
    B = transposeCore A ps.expectedDims ∧
      (∀ d, d ∈ A.dims ↔ d ∈ ps.expectedDims) := by
  unfold alignE at h
  by_cases hc : A.dims.all (fun d => d ∈ ps.expectedDims) ∧
      ps.expectedDims.all (fun d => d ∈ A.dims)
  · rw [if_pos hc] at h
    cases h
    refine ⟨rfl, fun d => ⟨?_, ?_⟩⟩
    · intro hd
      have := List.all_eq_true.mp hc.1 d hd
      simpa using this
    · intro hd
      have := List.all_eq_true.mp hc.2 d hd
      simpa using this
  · rw [if_neg hc] at h
    exact absurd h (by simp)

/-- C4: `_align` fails exactly when the tensor's set of axis names
differs from the expected set (order-independent); on success the result
has exactly the expected dims sequence, and its entries are those of the
input with the axes permuted (the entry of the output at the permuted
position of any valid input multi-index is the input's entry there). -/
theorem align_checks_axis_set_and_permutes (ps : XRParams) (A : DataArr)
    (hA : A.dims.Nodup) :
    ((∃ e, alignE ps A = .error e) ↔ ¬ (∀ d, d ∈ A.dims ↔ d ∈ ps.expectedDims)) ∧
    (∀ B, alignE ps A = .ok B → B.dims = ps.expectedDims ∧
      ∀ idx : List Nat, idx.length = A.dims.length →
        B.data (ps.expectedDims.map (fun dn => idx.getD (A.dims.indexOf dn) 0)) = A.data idx) := by
  constructor
  · unfold alignE
    by_cases hc : A.dims.all (fun d => d ∈ ps.expectedDims) ∧
        ps.expectedDims.all (fun d => d ∈ A.dims)
    · rw [if_pos hc]
      simp only [List.all_eq_true, decide_eq_true_eq] at hc
      constructor
      · rintro ⟨e, he⟩; exact absurd he (by simp)
      · intro hne
        exact absurd (fun d => ⟨fun hd => hc.1 d hd, fun hd => hc.2 d hd⟩) hne
    · rw [if_neg hc]
      constructor
      · intro _ hiff
        apply hc
        simp only [List.all_eq_true, decide_eq_true_eq]
        exact ⟨fun d hd => (hiff d).mp hd, fun d hd => (hiff d).mpr hd⟩
      · intro _; exact ⟨Err.assertionFailed, rfl⟩
  · intro B hB
    rcases alignE_ok hB with ⟨rfl, hset⟩
    refine ⟨rfl, ?_⟩
    intro idx hlen
    show A.data (A.dims.map (fun dn =>
      (ps.expectedDims.map (fun dn' => idx.getD (A.dims.indexOf dn') 0)).getD
        (ps.expectedDims.indexOf dn) 0)) = A.data idx
    congr 1
    have hmem : ∀ dn ∈ A.dims,
        (ps.expectedDims.map (fun dn' => idx.getD (A.dims.indexOf dn') 0)).getD
          (ps.expectedDims.indexOf dn) 0 = idx.getD (A.dims.indexOf dn) 0 := by
      intro dn hdn
      exact getD_map_indexOf ps.expectedDims _ dn 0 ((hset dn).mp hdn)
    rw [List.map_congr_left hmem]
    exact map_getD_indexOf_eq A.dims idx 0 hA hlen

/-- Example adapter parameters for concrete witnesses. -/
def exPs : XRParams := ⟨["p", "n"], "n", "nid", "sid"⟩

/-- Example source tensor (axes p and n, a stimulus coordinate on p). -/
def exSrc : DataArr := .mk ["p", "n"] [2, 2] (fun idx => ((idx.headD 0 : Nat) : Int))
  [⟨"sid", ["p"], [0, 1]⟩] []

/-- Example target tensor with two neuroid coordinates. -/
def exTgt : DataArr := .mk ["p", "n"] [2, 2] (fun _ => 0)
  [⟨"sid", ["p"], [0, 1]⟩, ⟨"nid", ["n"], [10, 20]⟩, ⟨"area", ["n"], [7, 8]⟩] []

/-- Example target tensor carrying a coordinate that spans both the
neuroid axis and another axis. -/
def exTgtBad : DataArr := .mk ["p", "n"] [2, 2] (fun _ => 0)
  [⟨"sid", ["p"], [0, 1]⟩, ⟨"both", ["p", "n"], [1, 2, 3, 4]⟩] []

/-- Witness for C4 at a concrete tensor whose axes are reversed relative
to the expected order. -/
theorem align_checks_axis_set_and_permutes_witness :
    ((∃ e, alignE exPs (.mk ["n", "p"] [2, 3] (fun idx => ((idx.headD 0 : Nat) : Int)) [] [])
        = .error e) ↔
      ¬ (∀ d, d ∈ (DataArr.mk ["n", "p"] [2, 3] (fun idx => ((idx.headD 0 : Nat) : Int)) [] []).dims
          ↔ d ∈ exPs.expectedDims)) ∧
    (∀ B, alignE exPs (.mk ["n", "p"] [2, 3] (fun idx => ((idx.headD 0 : Nat) : Int)) [] [])
        = .ok B →
      B.dims = exPs.expectedDims ∧
      ∀ idx : List Nat,
        idx.length = (DataArr.mk ["n", "p"] [2, 3]
          (fun idx => ((idx.headD 0 : Nat) : Int)) [] []).dims.length →
        B.data (exPs.expectedDims.map (fun dn =>
          idx.getD ((DataArr.mk ["n", "p"] [2, 3]
            (fun idx => ((idx.headD 0 : Nat) : Int)) [] []).dims.indexOf dn) 0))
          = (DataArr.mk ["n", "p"] [2, 3] (fun idx => ((idx.headD 0 : Nat) : Int)) [] []).data idx) :=
  align_checks_axis_set_and_permutes exPs _ (by decide)

/-- C8: calling `predict` on an adapter that was never fitted
(`_target_neuroid_values` still `None`) fails, for every source whose
axis set matches the expected axes: packaging reaches
`len(self._target_neuroid_values)` and Python raises a `TypeError`
(the spec's `UnfittedModelError`). -/
theorem predict_unfitted_fails (ps : XRParams) (pf : DataArr → RawArray) (source : DataArr)
    (h : source.dims.all (fun d => d ∈ ps.expectedDims) ∧
         ps.expectedDims.all (fun d => d ∈ source.dims)) :
    predictE ps none pf source = .error .typeError := by
  unfold predictE
  have ha : alignE ps source = .ok (transposeCore source ps.expectedDims) := by
    unfold alignE
    rw [if_pos h]
  rw [exBind_ok ha]
  rfl

/-- Witness for C8 at a concrete source. -/
theorem predict_unfitted_fails_witness :
    predictE exPs none (fun s => ⟨s.shape, s.data⟩) exSrc = .error .typeError :=
  predict_unfitted_fails exPs _ exSrc (by decide)

/-- C10: provided fit's earlier steps (alignment of both inputs and the
two stimulus sorts) succeed, `fit` fails — with the capture loop's
assertion — exactly when the target carries a coordinate attached to the
neuroid axis together with at least one other axis; the capture succeeds
exactly when every coordinate involving the neuroid axis is attached to
exactly that one axis. -/
theorem fit_asserts_neuroid_coords_on_single_axis (ps : XRParams) (prior : Option Capture)
    (source target s1 t1 s2 t2 : DataArr)
    (ha1 : alignE ps source = .ok s1) (ha2 : alignE ps target = .ok t1)
    (hs1 : sortByCoordsE s1 [ps.stimulusCoord] = .ok s2)
    (hs2 : sortByCoordsE t1 [ps.stimulusCoord] = .ok t2)
    (hwf : ∀ c ∈ target.coords, c.dims.Nodup) :
    (∃ e, fitE ps prior source target = .error e) ↔
      ∃ c ∈ target.coords, ps.neuroidDim ∈ c.dims ∧
        ∃ d' ∈ c.dims, d' ≠ ps.neuroidDim := by
  unfold fitE
  rw [exBind_ok ha1, exBind_ok ha2, exBind_ok hs1, exBind_ok hs2]
  have ht1c : t1.coords = target.coords := by
    rcases alignE_ok ha2 with ⟨rfl, _⟩
    rfl
  have step1 := fitCapture_error_iff ps.neuroidDim t2
  have step2 : (∃ c ∈ t2.coords, ps.neuroidDim ∈ c.dims ∧ c.dims ≠ [ps.neuroidDim]) ↔
      ∃ c ∈ target.coords, ps.neuroidDim ∈ c.dims ∧ c.dims ≠ [ps.neuroidDim] := by
    have := sortByCoordsE_exists_coord
      (P := fun _ dims => ps.neuroidDim ∈ dims ∧ dims ≠ [ps.neuroidDim]) hs2
    rw [ht1c] at this
    exact this
  rw [step1, step2]
  constructor
  · rintro ⟨c, hc, h1, h2⟩
    exact ⟨c, hc, h1, (nodup_ne_singleton_iff (hwf c hc) h1).mp h2⟩
  · rintro ⟨c, hc, h1, h2⟩
    exact ⟨c, hc, h1, (nodup_ne_singleton_iff (hwf c hc) h1).mpr h2⟩

/-- Witness for C10: a concrete fit whose target carries a coordinate on
both axes fails. -/
theorem fit_asserts_neuroid_coords_on_single_axis_witness :
    ∃ e, fitE exPs none exSrc exTgtBad = .error e := by
  refine (fit_asserts_neuroid_coords_on_single_axis exPs none exSrc exTgtBad
    _ _ _ _ rfl rfl rfl rfl (by decide)).mpr ?_
  exact ⟨⟨"both", ["p", "n"], [1, 2, 3, 4]⟩, by decide, by decide, "p", by decide, by decide⟩

theorem setAttr_dims (x : DataArr) (k : String) (r : DataArr) :
    (x.setAttr k r).dims = x.dims := by cases x; rfl

theorem setAttr_shape (x : DataArr) (k : String) (r : DataArr) :
    (x.setAttr k r).shape = x.shape := by cases x; rfl

theorem setAttr_data (x : DataArr) (k : String) (r : DataArr) :
    (x.setAttr k r).data = x.data := by cases x; rfl

theorem setAttr_coords (x : DataArr) (k : String) (r : DataArr) :
    (x.setAttr k r).coords = x.coords := by cases x; rfl

theorem setAttr_attrs (x : DataArr) (k : String) (r : DataArr) :
    (x.setAttr k r).attrs = updateAttr x.attrs k r := by cases x; rfl

theorem foldl_setAttr_dims (rs : List (String × DataArr)) :
    ∀ x : DataArr, (rs.foldl (fun v kr => v.setAttr kr.1 kr.2) x).dims = x.dims := by
  induction rs with
  | nil => intro x; rfl
  | cons kr rs ih => intro x; rw [List.foldl_cons, ih, setAttr_dims]

theorem foldl_setAttr_shape (rs : List (String × DataArr)) :
    ∀ x : DataArr, (rs.foldl (fun v kr => v.setAttr kr.1 kr.2) x).shape = x.shape := by
  induction rs with
  | nil => intro x; rfl
  | cons kr rs ih => intro x; rw [List.foldl_cons, ih, setAttr_shape]

theorem foldl_setAttr_data (rs : List (String × DataArr)) :
    ∀ x : DataArr, (rs.foldl (fun v kr => v.setAttr kr.1 kr.2) x).data = x.data := by
  induction rs with
  | nil => intro x; rfl
  | cons kr rs ih => intro x; rw [List.foldl_cons, ih, setAttr_data]

theorem foldl_setAttr_coords (rs : List (String × DataArr)) :
    ∀ x : DataArr, (rs.foldl (fun v kr => v.setAttr kr.1 kr.2) x).coords = x.coords := by
  induction rs with
  | nil => intro x; rfl
  | cons kr rs ih => intro x; rw [List.foldl_cons, ih, setAttr_coords]

theorem lookupAttr_updateAttr_self (l : List (String × DataArr)) (k : String) (r : DataArr) :
    (updateAttr l k r).find? (fun p => p.1 = k) = some (k, r) := by
  induction l with
  | nil => simp [updateAttr, List.find?]
  | cons p ps ih =>
    by_cases hp : p.1 = k
    · simp [updateAttr, hp, List.find?]
    · simp only [updateAttr, if_neg hp]
      rw [List.find?_cons_of_neg _ (by simp [hp])]
      exact ih

theorem lookupAttr_setAttr_self (x : DataArr) (k : String) (r : DataArr) :
    lookupAttr (x.setAttr k r) k = some r := by
  unfold lookupAttr
  rw [setAttr_attrs, lookupAttr_updateAttr_self]
  rfl

theorem lookupAttr_updateAttr_other (l : List (String × DataArr)) (k k' : String) (r : DataArr)
    (h : k' ≠ k) :
    (updateAttr l k r).find? (fun p => p.1 = k') = l.find? (fun p => p.1 = k') := by
  induction l with
  | nil => simp [updateAttr, List.find?, Ne.symm h]
  | cons p ps ih =>
    by_cases hp : p.1 = k
    · simp only [updateAttr, if_pos hp]
      rw [List.find?_cons_of_neg _ (by simp [Ne.symm h]),
          List.find?_cons_of_neg _ (by simp [hp ▸ Ne.symm h])]
    · simp only [updateAttr, if_neg hp]
      by_cases hk' : p.1 = k'
      · rw [List.find?_cons_of_pos _ (by simp [hk']), List.find?_cons_of_pos _ (by simp [hk'])]
      · rw [List.find?_cons_of_neg _ (by simp [hk']), List.find?_cons_of_neg _ (by simp [hk'])]
        exact ih

theorem lookupAttr_setAttr_other (x : DataArr) (k k' : String) (r : DataArr) (h : k' ≠ k) :
    lookupAttr (x.setAttr k r) k' = lookupAttr x k' := by
  unfold lookupAttr
  rw [setAttr_attrs, lookupAttr_updateAttr_other _ _ _ _ h]

theorem lookup_foldl_setAttr_not_mem (rs : List (String × DataArr)) (k : String)
    (hk : k ∉ rs.map (·.1)) :
    ∀ x : DataArr, lookupAttr (rs.foldl (fun v kr => v.setAttr kr.1 kr.2) x) k
      = lookupAttr x k := by
  induction rs with
  | nil => intro x; rfl
  | cons kr rs ih =>
    intro x
    have hk1 : k ≠ kr.1 := fun h => hk (by simp [h])
    have hk2 : k ∉ rs.map (·.1) := fun h => hk (by simp [h])
    rw [List.foldl_cons, ih hk2, lookupAttr_setAttr_other _ _ _ _ hk1]

theorem lookup_foldl_setAttr_mem (rs : List (String × DataArr)) (k : String) (r : DataArr)
    (hnd : (rs.map (·.1)).Nodup) (hm : (k, r) ∈ rs) :
    ∀ x : DataArr, lookupAttr (rs.foldl (fun v kr => v.setAttr kr.1 kr.2) x) k = some r := by
  induction rs with
  | nil => exact absurd hm (by simp)
  | cons kr rs ih =>
    intro x
    rcases List.mem_cons.mp hm with rfl | hm'
    · have hk2 : k ∉ rs.map (·.1) := by
        simpa using (List.nodup_cons.mp hnd).1
      rw [List.foldl_cons, lookup_foldl_setAttr_not_mem rs k hk2, lookupAttr_setAttr_self]
    · rw [List.foldl_cons]
      exact ih (List.nodup_cons.mp hnd).2 hm' _

theorem sizeOf_attrs_lt (a0 : DataArr) : sizeOf a0.attrs < sizeOf a0 := by
  cases a0; simp [DataArr.attrs]

theorem recAttrs_ok_spec (op : List DataArr → DataArr) :
    ∀ (l : List (String × DataArr)) (arrs : List DataArr) (rs : List (String × DataArr)),
      recAttrs op l arrs = .ok rs →
      rs.map (·.1) = l.map (·.1) ∧
      ∀ k w, (k, w) ∈ l → ∃ ws r,
        mapE (fun arr => match lookupAttr arr k with
                         | some x => .ok x
                         | none => .error Err.keyError) arrs = .ok ws ∧
        recursiveOpAux op w ws = .ok r ∧ (k, r) ∈ rs := by
  intro l
  induction l with
  | nil =>
    intro arrs rs h
    simp only [recAttrs] at h
    cases h
    exact ⟨rfl, fun k w hm => absurd hm (by simp)⟩
  | cons kw rest ih =>
    intro arrs rs h
    obtain ⟨k, w⟩ := kw
    simp only [recAttrs] at h
    cases hm : mapE (fun arr => match lookupAttr arr k with
                                | some x => .ok x
                                | none => .error Err.keyError) arrs with
    | error e => rw [hm] at h; exact absurd h (by simp)
    | ok ws =>
      rw [hm] at h
      simp only [] at h
      cases hr : recursiveOpAux op w ws with
      | error e => rw [hr] at h; exact absurd h (by simp)
      | ok r =>
        rw [hr] at h
        simp only [] at h
        cases hrest : recAttrs op rest arrs with
        | error e => rw [hrest] at h; exact absurd h (by simp)
        | ok rs' =>
          rw [hrest] at h
          simp only [] at h
          cases h
          rcases ih arrs rs' hrest with ⟨hmap, hall⟩
          refine ⟨by simp [hmap], ?_⟩
          intro k' w' hm'
          rcases List.mem_cons.mp hm' with heq | hmem
          · cases heq
            exact ⟨ws, r, hm, hr, by simp⟩
          · rcases hall k' w' hmem with ⟨ws', r', h1, h2, h3⟩
            exact ⟨ws', r', h1, h2, by simp [h3]⟩

theorem recOp_spine_strong (op : List DataArr → DataArr) :
    ∀ N : Nat,
      (∀ (a0 : DataArr) (arrs : List DataArr), sizeOf a0 ≤ N →
        ((∃ v, recursiveOpAux op a0 arrs = .ok v) ↔ spineOk a0 arrs = true)) ∧
      (∀ (l : List (String × DataArr)) (arrs : List DataArr), sizeOf l ≤ N →
        ((∃ rs, recAttrs op l arrs = .ok rs) ↔ spineAttrs l arrs = true)) := by
  intro N
  induction N using Nat.strong_induction_on with
  | _ N ih =>
    constructor
    · intro a0 arrs hN
      have hlt : sizeOf a0.attrs < N := lt_of_lt_of_le (sizeOf_attrs_lt a0) hN
      have IH2 := (ih _ hlt).2 a0.attrs arrs le_rfl
      simp only [recursiveOpAux, spineOk]
      cases h : recAttrs op a0.attrs arrs with
      | error e =>
        rw [h] at IH2
        simp only []
        constructor
        · rintro ⟨v, hv⟩; exact absurd hv (by simp)
        · intro hs
          rcases IH2.mpr hs with ⟨rs, hrs⟩
          exact absurd hrs (by simp)
      | ok rs =>
        rw [h] at IH2
        simp only []
        constructor
        · intro _; exact IH2.mp ⟨rs, rfl⟩
        · intro _; exact ⟨_, rfl⟩
    · intro l arrs hN
      cases l with
      | nil => simp [recAttrs, spineAttrs]
      | cons kw rest =>
        obtain ⟨k, w⟩ := kw
        have hwlt : sizeOf w < N := by
          have h1 : sizeOf w < sizeOf ((k, w) :: rest) := by simp; omega
          omega
        have hrlt : sizeOf rest < N := by
          have h1 : sizeOf rest < sizeOf ((k, w) :: rest) := by simp
          omega
        have IHw0 := (ih _ hwlt).1 w
        have IHr := (ih _ hrlt).2 rest arrs le_rfl
        simp only [recAttrs, spineAttrs]
        cases hm : mapE (fun arr => match lookupAttr arr k with
                                    | some x => .ok x
                                    | none => .error Err.keyError) arrs with
        | error e =>
          simp only []
          constructor
          · rintro ⟨rs, hrs⟩; exact absurd hrs (by simp)
          · intro hf; exact absurd hf (by simp)
        | ok ws =>
          simp only []
          have IHw := IHw0 ws le_rfl
          cases hr : recursiveOpAux op w ws with
          | error e =>
            rw [hr] at IHw
            simp only []
            have hnsw : ¬ spineOk w ws = true := by
              intro hs
              rcases IHw.mpr hs with ⟨v, hv⟩
              exact absurd hv (by simp)
            constructor
            · rintro ⟨rs, hrs⟩; exact absurd hrs (by simp)
            · intro hb
              exact absurd (Bool.and_elim_left hb) hnsw
          | ok r =>
            rw [hr] at IHw
            simp only []
            have hsw : spineOk w ws = true := IHw.mp ⟨r, rfl⟩
            cases hrest : recAttrs op rest arrs with
            | error e =>
              rw [hrest] at IHr
              simp only []
              have hnsr : ¬ spineAttrs rest arrs = true := by
                intro hs
                rcases IHr.mpr hs with ⟨rs, hrs⟩
                exact absurd hrs (by simp)
              constructor
              · rintro ⟨rs, hrs⟩; exact absurd hrs (by simp)
              · intro hb
                exact absurd (Bool.and_elim_right hb) hnsr
            | ok rs' =>
              simp only []
              have hsr : spineAttrs rest arrs = true := IHr.mp ⟨rs', hrest⟩
              constructor
              · intro _; simp [hsw, hsr]
              · intro _; exact ⟨_, rfl⟩

theorem recOpAux_ok_iff_spineOk (op : List DataArr → DataArr) (a0 : DataArr)
    (arrs : List DataArr) :
    (∃ v, recursiveOpAux op a0 arrs = .ok v) ↔ spineOk a0 arrs = true :=
  (recOp_spine_strong op (sizeOf a0)).1 a0 arrs le_rfl

/-- C7 (amended): `recursive_op` succeeds exactly when the operand list
is non-empty and every attribute name along the FIRST operand's attribute
tree is present in every operand at the corresponding position
(`spineOk`); attribute names of the other operands that the first operand
lacks are ignored rather than rejected.  On success the output's core
(dims, shape, data, coordinates) is exactly `op` applied to the operands,
and — when the first operand's attribute names are distinct, as xarray
attribute dicts guarantee — each attribute of the first operand is
re-attached under the same name to the result of the same recursive
combination of all operands' sub-tensors under that name. -/
theorem recursive_op_spine_and_structure (op : List DataArr → DataArr) (arrs : List DataArr) :
    ((∃ v, recursiveOpE op arrs = .ok v) ↔
      arrs ≠ [] ∧ spineOk (arrs.headD default) arrs = true) ∧
    (∀ v, recursiveOpE op arrs = .ok v →
      v.dims = (op arrs).dims ∧ v.shape = (op arrs).shape ∧
      v.data = (op arrs).data ∧ v.coords = (op arrs).coords ∧
      ((((arrs.headD default).attrs.map (·.1)).Nodup) →
        ∀ k w, (k, w) ∈ (arrs.headD default).attrs →
          ∃ ws r, mapE (fun arr => match lookupAttr arr k with
                                   | some x => .ok x
                                   | none => .error Err.keyError) arrs = .ok ws ∧
            recursiveOpAux op w ws = .ok r ∧ lookupAttr v k = some r)) := by
  constructor
  · cases arrs with
    | nil =>
      simp [recursiveOpE]
    | cons a0 rest =>
      simp only [recursiveOpE, List.headD_cons, ne_eq, reduceCtorEq, not_false_eq_true, true_and]
      exact recOpAux_ok_iff_spineOk op a0 (a0 :: rest)
  · intro v hv
    cases arrs with
    | nil => exact absurd hv (by simp [recursiveOpE])
    | cons a0 rest =>
      simp only [recursiveOpE] at hv
      simp only [recursiveOpAux] at hv
      cases h : recAttrs op a0.attrs (a0 :: rest) with
      | error e => rw [h] at hv; exact absurd hv (by simp)
      | ok rs =>
        rw [h] at hv
        simp only [Except.ok.injEq] at hv
        subst hv
        rcases recAttrs_ok_spec op a0.attrs (a0 :: rest) rs h with ⟨hmap, hall⟩
        refine ⟨foldl_setAttr_dims rs _, foldl_setAttr_shape rs _,
          foldl_setAttr_data rs _, foldl_setAttr_coords rs _, ?_⟩
        intro hnd k w hm
        rcases hall k w (by simpa using hm) with ⟨ws, r, h1, h2, h3⟩
        refine ⟨ws, r, h1, h2, ?_⟩
        have hndrs : (rs.map (·.1)).Nodup := by
          rw [hmap]; simpa using hnd
        exact lookup_foldl_setAttr_mem rs k r hndrs h3 _

/-- C7 counterexample: the claim requires failure whenever the operands'
attribute key sets differ at some depth, but `recursive_op` only ever
looks up keys of the FIRST operand: here the second operand has an
attribute the first lacks, the key sets differ, and the call succeeds. -/
theorem recursive_op_extra_keys_counterexample :
    (∃ v, recursiveOpE (fun l => l.headD default)
        [DataArr.mk ["x"] [1] (fun _ => 1) [] [],
         DataArr.mk ["x"] [1] (fun _ => 2) []
           [("k", DataArr.mk [] [] (fun _ => 5) [] [])]] = .ok v) ∧
    attrNames (DataArr.mk ["x"] [1] (fun _ => 1) [] []) ≠
      attrNames (DataArr.mk ["x"] [1] (fun _ => 2) []
        [("k", DataArr.mk [] [] (fun _ => 5) [] [])]) := by
  constructor
  · refine ⟨(fun (l : List DataArr) => l.headD default)
      [DataArr.mk ["x"] [1] (fun _ => 1) [] [],
       DataArr.mk ["x"] [1] (fun _ => 2) []
         [("k", DataArr.mk [] [] (fun _ => 5) [] [])]], ?_⟩
    simp only [recursiveOpE, recursiveOpAux, recAttrs, DataArr.attrs]
    rfl
  · simp [attrNames, DataArr.attrs]

/-- Witness for C7 at concrete operands sharing the attribute key. -/
theorem recursive_op_spine_and_structure_witness :
    (∃ v, recursiveOpE (fun l => l.headD default)
        [DataArr.mk ["x"] [1] (fun _ => 3) []
           [("k", DataArr.mk [] [] (fun _ => 5) [] [])],
         DataArr.mk ["x"] [1] (fun _ => 4) []
           [("k", DataArr.mk [] [] (fun _ => 6) [] [])]] = .ok v) ∧
    (∀ v, recursiveOpE (fun l => l.headD default)
        [DataArr.mk ["x"] [1] (fun _ => 3) []
           [("k", DataArr.mk [] [] (fun _ => 5) [] [])],
         DataArr.mk ["x"] [1] (fun _ => 4) []
           [("k", DataArr.mk [] [] (fun _ => 6) [] [])]] = .ok v →
      v.dims = ["x"]) := by
  constructor
  · refine (recursive_op_spine_and_structure _ _).1.mpr ⟨by simp, ?_⟩
    simp only [List.headD_cons]
    simp only [spineOk, spineAttrs, DataArr.attrs, mapE, lookupAttr, List.find?, Option.map_some]
    rfl
  · intro v hv
    exact ((recursive_op_spine_and_structure _ _).2 v hv).1

/-- The neuroid-coordinate view of a tensor: the values of the coordinate
named `name` among the coordinates attached to exactly the dimension
`nd`. -/
def neuroidCoordLookup (A : DataArr) (nd name : String) : Option (List Int) :=
  ((A.coords.filter (fun c => c.dims = [nd])).find? (fun c => c.name = name)).map
    (fun c => c.values)

theorem find?_filter_coords (p q : Coord → Bool) :
    ∀ l : List Coord, (l.filter p).find? q = l.find? (fun c => p c && q c) := by
  intro l
  induction l with
  | nil => rfl
  | cons c cs ih =>
    by_cases hp : p c
    · by_cases hq : q c
      · rw [List.filter_cons_of_pos hp, List.find?_cons_of_pos _ hq,
          List.find?_cons_of_pos _ (by simp [hp, hq])]
      · rw [List.filter_cons_of_pos hp, List.find?_cons_of_neg _ (by simp [hq]),
          List.find?_cons_of_neg _ (by simp [hq]), ih]
    · rw [List.filter_cons_of_neg (by simp [hp]), List.find?_cons_of_neg _ (by simp [hp]), ih]

theorem updateCoord_mem (l : List Coord) (c : Coord) :
    ∀ x ∈ updateCoord l c, x = c ∨ x ∈ l := by
  induction l with
  | nil => intro x hx; simp [updateCoord] at hx; exact Or.inl hx
  | cons c' cs ih =>
    intro x hx
    by_cases hp : c'.name = c.name
    · simp only [updateCoord, if_pos hp] at hx
      rcases List.mem_cons.mp hx with rfl | hm
      · exact Or.inl rfl
      · exact Or.inr (by simp [hm])
    · simp only [updateCoord, if_neg hp] at hx
      rcases List.mem_cons.mp hx with rfl | hm
      · exact Or.inr (by simp)
      · rcases ih x hm with h | h
        · exact Or.inl h
        · exact Or.inr (by simp [h])

theorem updateCoord_filter_singleton (p : Coord → Bool) (c : Coord) (hc : p c = true) :
    ∀ l : List Coord, (∀ x ∈ l, ¬ p x = true) → (updateCoord l c).filter p = [c] := by
  intro l
  induction l with
  | nil => intro _; simp [updateCoord, List.filter_cons, hc]
  | cons c' cs ih =>
    intro hl
    by_cases hp : c'.name = c.name
    · simp only [updateCoord, if_pos hp]
      rw [List.filter_cons_of_pos hc, List.filter_eq_nil_iff.mpr (fun x hx => hl x (by simp [hx]))]
    · simp only [updateCoord, if_neg hp]
      rw [List.filter_cons_of_neg (by simpa using hl c' (by simp)),
        ih (fun x hx => hl x (by simp [hx]))]

theorem updateCoord_find?_self (l : List Coord) (nd : String) (c : Coord)
    (hdims : c.dims = [nd]) :
    (updateCoord l c).find? (fun x => x.dims = [nd] && x.name = c.name) = some c := by
  induction l with
  | nil => simp [updateCoord, List.find?, hdims]
  | cons c' cs ih =>
    by_cases hp : c'.name = c.name
    · simp only [updateCoord, if_pos hp]
      rw [List.find?_cons_of_pos _ (by simp [hdims])]
    · simp only [updateCoord, if_neg hp]
      rw [List.find?_cons_of_neg _ (by simp [hp])]
      exact ih

theorem updateCoord_find?_other (l : List Coord) (nd name : String) (c : Coord)
    (hne : name ≠ c.name) :
    (updateCoord l c).find? (fun x => x.dims = [nd] && x.name = name)
      = l.find? (fun x => x.dims = [nd] && x.name = name) := by
  induction l with
  | nil => simp [updateCoord, List.find?, Ne.symm hne]
  | cons c' cs ih =>
    by_cases hp : c'.name = c.name
    · simp only [updateCoord, if_pos hp]
      rw [List.find?_cons_of_neg _ (by simp [Ne.symm hne]),
        List.find?_cons_of_neg _ (by simp [hp, Ne.symm hne])]
    · simp only [updateCoord, if_neg hp]
      by_cases hq : (c'.dims = [nd] && c'.name = name : Bool)
      · rw [@List.find?_cons_of_pos _ (fun x => x.dims = [nd] && x.name = name) c'
            (updateCoord cs c) hq,
          @List.find?_cons_of_pos _ (fun x => x.dims = [nd] && x.name = name) c' cs hq]
      · rw [@List.find?_cons_of_neg _ (fun x => x.dims = [nd] && x.name = name) c'
            (updateCoord cs c) hq,
          @List.find?_cons_of_neg _ (fun x => x.dims = [nd] && x.name = name) c' cs hq, ih]

theorem foldl_updateCoord_find? (nd : String) :
    ∀ (tvals : List (String × List Int)) (cs : List Coord) (name : String),
      ((tvals.map (·.1)).Nodup) →
      ((tvals.foldl (fun cs tv => updateCoord cs ⟨tv.1, [nd], tv.2⟩) cs).find?
          (fun x => x.dims = [nd] && x.name = name)).map (fun c => c.values)
        = Option.or ((tvals.find? (fun tv => tv.1 = name)).map (·.2))
            ((cs.find? (fun x => x.dims = [nd] && x.name = name)).map (fun c => c.values)) := by
  intro tvals
  induction tvals with
  | nil => intro cs name _; simp [List.find?]
  | cons tv rest ih =>
    intro cs name hnd
    have hcons : (tv.1 :: rest.map (·.1)).Nodup := by simpa using hnd
    rw [List.foldl_cons]
    rw [ih _ name (List.nodup_cons.mp hcons).2]
    by_cases heq : tv.1 = name
    · subst heq
      have hnotin : ∀ tv' ∈ rest, ¬ (tv'.1 = tv.1) := by
        intro tv' hm h
        exact (List.nodup_cons.mp hcons).1 (h ▸ List.mem_map.mpr ⟨tv', hm, rfl⟩)
      rw [List.find?_eq_none.mpr (fun tv' hm => by simpa using hnotin tv' hm)]
      rw [List.find?_cons_of_pos _ (by simp)]
      rw [updateCoord_find?_self cs nd ⟨tv.1, [nd], tv.2⟩ rfl]
      rfl
    · rw [List.find?_cons_of_neg _ (by simp [heq])]
      rw [updateCoord_find?_other cs nd name ⟨tv.1, [nd], tv.2⟩ (by simpa using Ne.symm heq)]

theorem mkAssemblyE_ok {shape : List Nat} {f : List Nat → Int} {coords : List Coord}
    {dims : List String} {Q : DataArr}
    (h : mkAssemblyE shape f coords dims = .ok Q) :
    Q = .mk dims shape f coords [] ∧ dims.Nodup ∧ shape.length = dims.length ∧
      ∀ c ∈ coords, (∀ dn ∈ c.dims, dn ∈ dims) ∧
        c.values.length = prodNat (c.dims.map (fun dn => shape.getD (dims.indexOf dn) 0)) := by
  unfold mkAssemblyE at h
  by_cases hc : dims.Nodup ∧ shape.length = dims.length ∧
      coords.all (fun c =>
        c.dims.all (fun dn => dn ∈ dims) ∧
        c.values.length = prodNat (c.dims.map (fun dn => shape.getD (dims.indexOf dn) 0)))
  · rw [if_pos hc] at h
    cases h
    refine ⟨rfl, hc.1, hc.2.1, ?_⟩
    intro c hcm
    have := List.all_eq_true.mp hc.2.2 c hcm
    simp only [decide_eq_true_eq, Bool.and_eq_true, List.all_eq_true] at this
    exact ⟨fun dn hdn => by simpa using this.1 dn hdn, this.2⟩
  · rw [if_neg hc] at h
    exact absurd h (by simp)

theorem stackSingleE_ok {A P : DataArr} {newDim level : String}
    (h : stackSingleE A newDim level = .ok P) :
    level ∈ A.dims ∧ newDim ∉ A.dims ∧
    P.dims = A.dims.erase level ++ [newDim] ∧
    P.coords = A.coords.map (fun c =>
      if level ∈ c.dims then
        { name := c.name, dims := c.dims.map (fun dn => if dn = level then newDim else dn),
          values := c.values }
      else c) ∧
    P.attrs = A.attrs := by
  unfold stackSingleE at h
  by_cases hc : level ∈ A.dims ∧ newDim ∉ A.dims
  · rw [if_pos hc] at h
    simp only [Except.ok.injEq] at h
    subst h
    exact ⟨hc.1, hc.2, rfl, rfl, rfl⟩
  · rw [if_neg hc] at h
    exact absurd h (by simp)

theorem sortByCoordsE_single_ok {A B : DataArr} {name : String}
    (h : sortByCoordsE A [name] = .ok B) :
    ∃ sc, lookupCoord A name = some sc ∧ sc.dims.length = 1 ∧
      B = sortAlongDim A (sc.dims.headD "")
        (argsortLex [sc.values] sc.values.length) := by
  unfold sortByCoordsE at h
  rcases exBind_ok_iff.mp h with ⟨cs, hcs, hfold⟩
  simp only [mapE] at hcs
  cases hlk : lookupCoord A name with
  | none => rw [hlk] at hcs; exact absurd hcs (by simp)
  | some sc =>
    rw [hlk] at hcs
    simp only [] at hcs
    by_cases hlen : sc.dims.length = 1
    · rw [if_pos hlen] at hcs
      simp only [] at hcs
      cases hcs
      refine ⟨sc, rfl, hlen, ?_⟩
      simp only [Except.ok.injEq] at hfold
      rw [← hfold]
      simp [dedupFirst, List.foldl_cons, List.filter_cons]
    · rw [if_neg hlen] at hcs
      exact absurd hcs (by simp)

theorem sortAlongDim_filter_nd {A : DataArr} {sd nd : String} (pi : List Nat)
    (hne : sd ≠ nd) :
    (sortAlongDim A sd pi).coords.filter (fun c => c.dims = [nd])
      = A.coords.filter (fun c => c.dims = [nd]) := by
  rw [sortAlongDim_coords]
  induction A.coords with
  | nil => rfl
  | cons c cs ih =>
    by_cases hd : sd ∈ c.dims
    · have hcnd : ¬ (c.dims = [nd]) := by
        intro hc
        rw [hc] at hd
        simp at hd
        exact hne hd
      rw [List.map_cons]
      rw [List.filter_cons_of_neg (by simpa [hd] using hcnd),
        List.filter_cons_of_neg (by simpa using hcnd)]
      exact ih
    · rw [List.map_cons, if_neg hd]
      by_cases hcnd : (c.dims = [nd])
      · rw [List.filter_cons_of_pos (by simpa using hcnd),
          List.filter_cons_of_pos (by simpa using hcnd), ih]
      · rw [List.filter_cons_of_neg (by simpa using hcnd),
          List.filter_cons_of_neg (by simpa using hcnd), ih]

theorem nodup_map_inj_mem {α β : Type _} {l : List α} {g : α → β}
    (h : (l.map g).Nodup) : ∀ x ∈ l, ∀ y ∈ l, g x = g y → x = y := by
  induction l with
  | nil => intro x hx; exact absurd hx (by simp)
  | cons a as ih =>
    intro x hx y hy hg
    have hpair : (∀ z ∈ as, ¬ g z = g a) ∧ (as.map g).Nodup := by simpa using h
    rcases List.mem_cons.mp hx with rfl | hx'
    · rcases List.mem_cons.mp hy with rfl | hy'
      · rfl
      · exact absurd hg.symm (hpair.1 y hy')
    · rcases List.mem_cons.mp hy with rfl | hy'
      · exact absurd hg (hpair.1 x hx')
      · exact ih hpair.2 x hx' y hy' hg

theorem packagePrediction_multi {ps : XRParams} {tvals : Capture} {raw : RawArray}
    {src P : DataArr} (h : packagePrediction ps (some tvals) raw src = .ok P)
    (hlen : ¬ tvals.length = 1) (hnd : (tvals.map (·.1)).Nodup) :
    ∀ name, neuroidCoordLookup P ps.neuroidDim name
      = (tvals.find? (fun tv => tv.1 = name)).map (·.2) := by
  unfold packagePrediction at h
  simp only [if_neg hlen] at h
  cases hmk : mkAssemblyE raw.shape raw.data
      (tvals.foldl (fun cs tv =>
        updateCoord cs { name := tv.1, dims := [(none : Option String).getD ps.neuroidDim],
                         values := tv.2 })
        (src.coords.filter (fun c => ¬ (c.dims = [ps.neuroidDim])))) src.dims with
  | error e => rw [hmk] at h; exact absurd h (by simp)
  | ok pred =>
    rw [hmk] at h
    simp only [Except.ok.injEq] at h
    subst h
    rcases mkAssemblyE_ok hmk with ⟨rfl, _, _, _⟩
    intro name
    unfold neuroidCoordLookup
    show (((tvals.foldl (fun cs tv =>
        updateCoord cs { name := tv.1, dims := [(none : Option String).getD ps.neuroidDim],
                         values := tv.2 })
        (src.coords.filter (fun c => ¬ (c.dims = [ps.neuroidDim])))).filter
          (fun c => c.dims = [ps.neuroidDim])).find?
        (fun c => c.name = name)).map (fun c => c.values)
      = (tvals.find? (fun tv => tv.1 = name)).map (·.2)
    rw [find?_filter_coords]
    simp only [Option.getD]
    rw [foldl_updateCoord_find? ps.neuroidDim tvals _ name hnd]
    have hnone : (src.coords.filter (fun c => ¬ (c.dims = [ps.neuroidDim]))).find?
        (fun x => x.dims = [ps.neuroidDim] && x.name = name) = none := by
      rw [List.find?_eq_none]
      intro x hx
      have := (List.mem_filter.mp hx).2
      simp only [decide_eq_true_eq, decide_not, Bool.not_eq_true'] at this ⊢
      simp [this]
    rw [hnone]
    simp [Option.or_none]

theorem packagePrediction_single {ps : XRParams} {c0 : String} {v : List Int}
    {raw : RawArray} {src P : DataArr}
    (h : packagePrediction ps (some [(c0, v)]) raw src = .ok P)
    (hndin : ps.neuroidDim ∈ src.dims)
    (hsw : ∀ c ∈ src.coords, ∀ d ∈ c.dims, d ∈ src.dims) :
    ps.neuroidDim ∈ P.dims ∧ c0 ∉ P.dims ∧
    P.coords.filter (fun c => c.dims = [ps.neuroidDim]) = [⟨c0, [ps.neuroidDim], v⟩] := by
  unfold packagePrediction at h
  simp only [List.length_cons, List.length_nil, if_pos rfl, if_true, ite_true,
    List.headD_cons, Option.getD, List.foldl_cons, List.foldl_nil] at h
  set dims1 := src.dims.map (fun dim => if dim = ps.neuroidDim then c0 else dim) with hdims1
  set coords0 := src.coords.filter (fun c => ¬ (c.dims = [ps.neuroidDim])) with hcoords0
  set cNew : Coord := ⟨c0, [c0], v⟩ with hcNew
  cases hmk : mkAssemblyE raw.shape raw.data (updateCoord coords0 cNew) dims1 with
  | error e => rw [hmk] at h; exact absurd h (by simp)
  | ok pred =>
    rw [hmk] at h
    simp only [] at h
    rcases mkAssemblyE_ok hmk with ⟨hpred, hnodup1, _, hcwf⟩
    rcases stackSingleE_ok h with ⟨hc0in, hndout, hPdims, hPcoords, _⟩
    rw [hpred] at hc0in hndout
    simp only [DataArr.dims] at hc0in hndout
    have hPdims2 : P.dims = dims1.erase c0 ++ [ps.neuroidDim] := by
      rw [hPdims, hpred]
      rfl
    have hPcoords2 : P.coords = (updateCoord coords0 cNew).map (fun c =>
        if c0 ∈ c.dims then
          { name := c.name, dims := c.dims.map (fun dn => if dn = c0 then ps.neuroidDim else dn),
            values := c.values }
        else c) := by
      rw [hPcoords, hpred]
      rfl
    have hc0nd : c0 ≠ ps.neuroidDim := by
      intro heq
      rw [heq] at hc0in
      exact hndout hc0in
    have hc0src : c0 ∉ src.dims := by
      intro hin
      have heq := @nodup_map_inj_mem _ _ src.dims
        (fun dim => if dim = ps.neuroidDim then c0 else dim) hnodup1
        ps.neuroidDim hndin c0 hin (by simp [hc0nd])
      exact hc0nd heq.symm
    have hcoords0prop : ∀ c ∈ coords0, ¬ (c.dims = [ps.neuroidDim]) ∧ ¬ (c.dims = [c0]) := by
      intro c hc
      rw [hcoords0] at hc
      rcases List.mem_filter.mp hc with ⟨hmem, hflt⟩
      refine ⟨by simpa using hflt, ?_⟩
      intro hdc
      have := hsw c hmem c0 (by rw [hdc]; simp)
      exact hc0src this
    refine ⟨?_, ?_, ?_⟩
    · rw [hPdims2]
      simp
    · rw [hPdims2]
      intro hmem
      rcases List.mem_append.mp hmem with hmem1 | hmem1
      · exact (List.Nodup.not_mem_erase hnodup1) hmem1
      · simp at hmem1
        exact hc0nd hmem1
    · rw [hPcoords2]
      rw [List.filter_map]
      have hfeq : ∀ c ∈ updateCoord coords0 cNew,
          ((fun c => decide (c.dims = [ps.neuroidDim])) ∘ (fun c =>
            if c0 ∈ c.dims then
              { name := c.name,
                dims := c.dims.map (fun dn => if dn = c0 then ps.neuroidDim else dn),
                values := c.values }
            else c)) c = decide (c.dims = [c0]) := by
        intro c hc
        rcases updateCoord_mem coords0 cNew c hc with rfl | hc0mem
        · simp [hcNew]
        · rcases hcoords0prop c hc0mem with ⟨hp1, hp2⟩
          by_cases hcd : c0 ∈ c.dims
          · have : c0 ∈ src.dims :=
              hsw c (List.mem_of_mem_filter (hcoords0 ▸ hc0mem)) c0 hcd
            exact absurd this hc0src
          · simp only [Function.comp, if_neg hcd]
            simp [hp1, hp2]
      rw [List.filter_congr hfeq]
      rw [updateCoord_filter_singleton _ cNew (by simp [hcNew]) coords0
        (fun x hx => by simpa using (hcoords0prop x hx).2)]
      simp [hcNew, hc0nd]

/-- C3: for a fitted adapter whose capture holds exactly one neuroid
coordinate, a successful `predict` returns a tensor whose neuroid axis is
named by the generic neuroid dimension name — the captured coordinate's
own name does not appear as an axis — and exactly that one coordinate,
with its captured values, is attached to that axis. -/
theorem predict_single_capture_keeps_generic_axis
    (ps : XRParams) (c0 : String) (v : List Int) (pf : DataArr → RawArray)
    (source P : DataArr)
    (hndexp : ps.neuroidDim ∈ ps.expectedDims)
    (hpred : predictE ps (some [(c0, v)]) pf source = .ok P)
    (hsw : ∀ c ∈ source.coords, ∀ d ∈ c.dims, d ∈ source.dims) :
    ps.neuroidDim ∈ P.dims ∧ c0 ∉ P.dims ∧
    P.coords.filter (fun c => c.dims = [ps.neuroidDim]) = [⟨c0, [ps.neuroidDim], v⟩] := by
  unfold predictE at hpred
  rcases exBind_ok_iff.mp hpred with ⟨s1, hs1, hpk⟩
  have hset := (alignE_ok hs1).2
  rw [(alignE_ok hs1).1] at hpk
  apply packagePrediction_single hpk
  · exact hndexp
  · intro c hc d hd
    exact (hset d).mp (hsw c hc d hd)

/-- Witness for C3 at a concrete fitted adapter and source. -/
theorem predict_single_capture_keeps_generic_axis_witness :
    ∃ P, predictE exPs (some [("nid", [10, 20])]) (fun s => ⟨s.shape, s.data⟩) exSrc = .ok P ∧
      "n" ∈ P.dims ∧ "nid" ∉ P.dims ∧
      P.coords.filter (fun c => c.dims = ["n"]) = [⟨"nid", ["n"], [10, 20]⟩] := by
  refine ⟨_, rfl, ?_⟩
  exact predict_single_capture_keeps_generic_axis exPs "nid" [10, 20]
    (fun s => ⟨s.shape, s.data⟩) exSrc _ (by decide) rfl (by decide)

theorem map_name_values_find (name : String) :
    ∀ l : List Coord,
      (((l.map (fun c => (c.name, c.values))).find? (fun tv => tv.1 = name)).map (·.2))
        = ((l.find? (fun c => c.name = name)).map (fun c => c.values)) := by
  intro l
  induction l with
  | nil => rfl
  | cons c cs ih =>
    by_cases hc : c.name = name
    · rw [List.map_cons, List.find?_cons_of_pos _ (by simpa using hc),
        List.find?_cons_of_pos _ (by simpa using hc)]
      rfl
    · rw [List.map_cons, List.find?_cons_of_neg _ (by simpa using hc),
        List.find?_cons_of_neg _ (by simpa using hc), ih]

/-- C1 (amended): after a successful `fit(source, target)` whose stimulus
(sort) coordinate does not lie on the neuroid axis, a successful
`predict` returns a tensor whose coordinates attached to exactly the
neuroid axis agree pointwise (by name) with `target`'s original neuroid
coordinates, for every source; and the captured state is independent of
any previously captured state (each `fit` replaces it). -/
theorem predict_restores_target_neuroid_coords
    (ps : XRParams) (prior : Option Capture) (source target : DataArr)
    (cap : Capture) (P : DataArr) (pf : DataArr → RawArray)
    (hndexp : ps.neuroidDim ∈ ps.expectedDims)
    (hfit : fitE ps prior source target = .ok cap)
    (hpred : predictE ps (some cap) pf source = .ok P)
    (hstim : ∀ sc, lookupCoord target ps.stimulusCoord = some sc →
      ps.neuroidDim ∉ sc.dims)
    (htn : (target.coords.map (fun c => c.name)).Nodup)
    (hsw : ∀ c ∈ source.coords, ∀ d ∈ c.dims, d ∈ source.dims) :
    (∀ name, neuroidCoordLookup P ps.neuroidDim name
       = neuroidCoordLookup target ps.neuroidDim name) ∧
    (∀ prior', fitE ps prior' source target = fitE ps prior source target) := by
  refine ⟨?_, fun _ => rfl⟩
  unfold fitE at hfit
  rcases exBind_ok_iff.mp hfit with ⟨s1, hs1, hfit1⟩
  rcases exBind_ok_iff.mp hfit1 with ⟨t1, ht1, hfit2⟩
  rcases exBind_ok_iff.mp hfit2 with ⟨s2, hs2, hfit3⟩
  rcases exBind_ok_iff.mp hfit3 with ⟨t2, ht2, hcap⟩
  have ht1eq := (alignE_ok ht1).1
  rcases sortByCoordsE_single_ok ht2 with ⟨sc, hsc, hsclen, ht2eq⟩
  obtain ⟨sd, hsd⟩ := List.length_eq_one.mp hsclen
  have hscT : lookupCoord target ps.stimulusCoord = some sc := by
    rw [ht1eq] at hsc
    exact hsc
  have hndsc := hstim sc hscT
  have hsdnd : sd ≠ ps.neuroidDim := by
    intro h
    exact hndsc (by rw [hsd, h]; simp)
  have hcapval := fitCapture_ok ps.neuroidDim t2 cap hcap
  have hfilt : t2.coords.filter (fun c => c.dims = [ps.neuroidDim])
      = target.coords.filter (fun c => c.dims = [ps.neuroidDim]) := by
    rw [ht2eq]
    have hhd : sc.dims.headD "" = sd := by rw [hsd]; rfl
    rw [hhd, sortAlongDim_filter_nd _ hsdnd, ht1eq]
    rfl
  have hcap2 : cap = (target.coords.filter (fun c => c.dims = [ps.neuroidDim])).map
      (fun c => (c.name, c.values)) := by
    rw [hcapval, hfilt]
  have hcnd : (cap.map (·.1)).Nodup := by
    rw [hcap2, List.map_map]
    have hco : ((fun p : String × List Int => p.1) ∘ (fun c : Coord => (c.name, c.values)))
        = fun c : Coord => c.name := rfl
    rw [hco]
    exact List.Nodup.sublist
      (List.Sublist.map (fun c : Coord => c.name) (List.filter_sublist target.coords)) htn
  have htgt : ∀ name, (cap.find? (fun tv => tv.1 = name)).map (·.2)
      = neuroidCoordLookup target ps.neuroidDim name := by
    intro name
    rw [hcap2]
    unfold neuroidCoordLookup
    exact map_name_values_find name _
  unfold predictE at hpred
  rcases exBind_ok_iff.mp hpred with ⟨s1', hs1', hpk⟩
  rw [(alignE_ok hs1').1] at hpk
  by_cases hlen : cap.length = 1
  · obtain ⟨tv0, hcap1⟩ := List.length_eq_one.mp hlen
    obtain ⟨name0, vals0⟩ := tv0
    rw [hcap1] at hpk
    have hsw' : ∀ c ∈ (transposeCore source ps.expectedDims).coords,
        ∀ d ∈ c.dims, d ∈ (transposeCore source ps.expectedDims).dims := by
      intro c hc d hd
      exact ((alignE_ok hs1').2 d).mp (hsw c hc d hd)
    have hps := packagePrediction_single hpk hndexp hsw'
    rcases hps with ⟨_, _, hfiltP⟩
    intro name
    rw [← htgt name]
    unfold neuroidCoordLookup
    rw [hfiltP, hcap1]
    by_cases h0 : name0 = name
    · rw [List.find?_cons_of_pos _ (by simpa using h0),
        List.find?_cons_of_pos _ (by simpa using h0)]
      rfl
    · rw [List.find?_cons_of_neg _ (by simpa using h0),
        List.find?_cons_of_neg _ (by simpa using h0)]
      rfl
  · intro name
    exact (packagePrediction_multi hpk hlen hcnd name).trans (htgt name)

/-- C1 counterexample: a target accepted by `fit` (axis sets equal to the
expected axes) whose stimulus coordinate lies on the neuroid axis: the
sort in `fit` reorders the neuroid axis, the capture stores the reordered
labels, and `predict` reinjects them — the returned neuroid coordinate is
not pointwise equal to the target's original one. -/
theorem predict_neuroid_coords_counterexample :
    ∃ cap P, fitE exPs none
        (.mk ["p", "n"] [1, 2] (fun _ => 0) [⟨"sid", ["p"], [0]⟩] [])
        (.mk ["p", "n"] [1, 2] (fun _ => 0)
          [⟨"sid", ["n"], [5, 3]⟩, ⟨"nid", ["n"], [10, 20]⟩] []) = .ok cap ∧
      predictE exPs (some cap) (fun s => ⟨s.shape, fun _ => 0⟩)
        (.mk ["p", "n"] [1, 2] (fun _ => 0) [⟨"sid", ["p"], [0]⟩] []) = .ok P ∧
      neuroidCoordLookup P "n" "nid" = some [20, 10] ∧
      neuroidCoordLookup
        (.mk ["p", "n"] [1, 2] (fun _ => 0)
          [⟨"sid", ["n"], [5, 3]⟩, ⟨"nid", ["n"], [10, 20]⟩] []) "n" "nid"
        = some [10, 20] := by
  refine ⟨_, _, rfl, rfl, ?_, by decide⟩
  decide

/-- Witness for C1 at a concrete well-behaved fit/predict pair. -/
theorem predict_restores_target_neuroid_coords_witness :
    ∃ cap P, fitE exPs none exSrc exTgt = .ok cap ∧
      predictE exPs (some cap) (fun s => ⟨s.shape, s.data⟩) exSrc = .ok P ∧
      ∀ name, neuroidCoordLookup P "n" name = neuroidCoordLookup exTgt "n" name := by
  refine ⟨_, _, rfl, rfl, ?_⟩
  exact (predict_restores_target_neuroid_coords exPs none exSrc exTgt _ _
    (fun s => ⟨s.shape, s.data⟩) (by decide) rfl rfl
    (by
      intro sc hsc
      have h2 : some (⟨"sid", ["p"], [0, 1]⟩ : Coord) = some sc := hsc
      cases Option.some.inj h2
      decide)
    (by decide) (by decide)).1

theorem getD_range (n i d : Nat) (h : i < n) : (List.range n).getD i d = i := by
  rw [List.getD_eq_getElem?_getD, List.getElem?_range h]
  rfl

theorem iselE_ok {A B : DataArr} {d : String} {i : Nat} (h : iselE A d i = .ok B) :
    d ∈ A.dims ∧ B = iselCore A d i := by
  unfold iselE at h
  by_cases hd : d ∈ A.dims
  · rw [if_pos hd] at h
    cases h
    exact ⟨hd, rfl⟩
  · rw [if_neg hd] at h
    exact absurd h (by simp)

/-- C5: if a call to the comparison adapter succeeds, then after the
alignment sorts the collapse coordinate lies on exactly one dimension,
the result is a Score whose only dimension is that collapsed axis, whose
length is the collapse coordinate's label count (the axis's size, given
the xarray invariant that coordinate lengths match their axis), whose
entry at each index is the first component (statistic) returned by the
comparison strategy on the pair of slices at that index — the second
component (p-value) is discarded — and which carries exactly the sorted
target's coordinates whose axis tuple equals the collapsed axis. -/
theorem correlation_collapses_neuroid_axis
    (corr : DataArr → DataArr → Int × Int) (cc nc : String)
    (prediction target t S : DataArr)
    (ht : sortByCoordsE target [cc, nc] = .ok t)
    (hS : xarrayCorrelationE corr cc nc prediction target = .ok S)
    (hcoordlen : ∀ c ∈ t.coords, c.dims.length = 1 →
      t.sizeOfDim (c.dims.headD "") = some c.values.length) :
    ∃ p tn, sortByCoordsE prediction [cc, nc] = .ok p ∧
      lookupCoord t nc = some tn ∧ tn.dims.length = 1 ∧
      S.dims = tn.dims ∧ S.shape = [tn.values.length] ∧
      t.sizeOfDim (tn.dims.headD "") = some tn.values.length ∧
      (∀ i, i < tn.values.length →
        S.data [i] = (corr (iselCore t (tn.dims.headD "") i)
                           (iselCore p (tn.dims.headD "") i)).1) ∧
      S.coords = t.coords.filter (fun c => c.dims = tn.dims) ∧
      S.attrs = [] := by
  unfold xarrayCorrelationE at hS
  rcases exBind_ok_iff.mp hS with ⟨p, hp, hS1⟩
  rcases exBind_ok_iff.mp hS1 with ⟨t', ht', hS2⟩
  rw [ht] at ht'
  have : t = t' := by injection ht'
  subst this
  cases hlpc : lookupCoord p cc with
  | none => rw [hlpc] at hS2; exact absurd hS2 (by simp)
  | some pc =>
    rw [hlpc] at hS2
    cases hltc : lookupCoord t cc with
    | none => rw [hltc] at hS2; exact absurd hS2 (by simp)
    | some tc =>
      rw [hltc] at hS2
      simp only [] at hS2
      by_cases hvals : pc.values = tc.values
      · rw [if_pos hvals] at hS2
        cases hlpn : lookupCoord p nc with
        | none => rw [hlpn] at hS2; exact absurd hS2 (by simp)
        | some pn =>
          rw [hlpn] at hS2
          cases hltn : lookupCoord t nc with
          | none => rw [hltn] at hS2; exact absurd hS2 (by simp)
          | some tn =>
            rw [hltn] at hS2
            simp only [] at hS2
            by_cases hnvals : pn.values = tn.values
            · rw [if_pos hnvals] at hS2
              by_cases hndim : tn.dims.length = 1
              · rw [if_pos hndim] at hS2
                rcases exBind_ok_iff.mp hS2 with ⟨correlations, hcor, hS7⟩
                rcases mkAssemblyE_ok hS7 with ⟨hSeq, _, _, _⟩
                refine ⟨p, tn, hp, rfl, hndim, ?_, ?_, ?_, ?_, ?_, ?_⟩
                · rw [hSeq]; rfl
                · rw [hSeq]
                  show [correlations.length] = [tn.values.length]
                  rw [mapE_ok_length hcor, List.length_range]
                · exact hcoordlen tn (List.mem_of_find?_eq_some hltn) hndim
                · intro i hi
                  rw [hSeq]
                  show correlations.getD ([i].headD 0) 0
                    = (corr (iselCore t (tn.dims.headD "") i)
                            (iselCore p (tn.dims.headD "") i)).1
                  have hget := mapE_ok_get hcor i 0 0 (by simpa using hi)
                  rw [getD_range _ _ _ hi] at hget
                  rcases exBind_ok_iff.mp hget with ⟨tN, htN, hg2⟩
                  rcases exBind_ok_iff.mp hg2 with ⟨pN, hpN, hg3⟩
                  rcases iselE_ok htN with ⟨_, rfl⟩
                  rcases iselE_ok hpN with ⟨_, rfl⟩
                  have hresult : (corr (iselCore t (tn.dims.headD "") i)
                      (iselCore p (tn.dims.headD "") i)).1 = correlations.getD i 0 := by
                    injection hg3
                  exact hresult.symm
                · rw [hSeq]; rfl
                · rw [hSeq]; rfl
              · rw [if_neg hndim] at hS2
                exact absurd hS2 (by simp)
            · rw [if_neg hnvals] at hS2
              exact absurd hS2 (by simp)
      · rw [if_neg hvals] at hS2
        exact absurd hS2 (by simp)

/-- Witness for C5 at a concrete comparison of a tensor with itself. -/
theorem correlation_collapses_neuroid_axis_witness :
    ∃ t S, sortByCoordsE exTgt ["sid", "nid"] = .ok t ∧
      xarrayCorrelationE (fun a b => (a.data [0] * 10 + b.data [0], 99)) "sid" "nid"
        exTgt exTgt = .ok S ∧
      ∃ p tn, sortByCoordsE exTgt ["sid", "nid"] = .ok p ∧
        lookupCoord t "nid" = some tn ∧ tn.dims.length = 1 ∧
        S.dims = tn.dims ∧ S.shape = [tn.values.length] ∧
        t.sizeOfDim (tn.dims.headD "") = some tn.values.length ∧
        (∀ i, i < tn.values.length →
          S.data [i] = ((fun (a b : DataArr) => (a.data [0] * 10 + b.data [0], (99 : Int)))
            (iselCore t (tn.dims.headD "") i) (iselCore p (tn.dims.headD "") i)).1) ∧
        S.coords = t.coords.filter (fun c => c.dims = tn.dims) ∧
        S.attrs = [] := by
  refine ⟨_, _, rfl, rfl, ?_⟩
  exact correlation_collapses_neuroid_axis
    (fun (a b : DataArr) => (a.data [0] * 10 + b.data [0], (99 : Int))) "sid" "nid"
    exTgt exTgt _ _ rfl rfl (by decide)

/-- Length of the collected list for key `k` in an attribute collection. -/
def keyLen (L : List (String × List DataArr)) (k : String) : Nat :=
  ((L.find? (fun p => p.1 = k)).map (fun p => p.2.length)).getD 0

theorem mapE_ok_mem {α β : Type _} {f : α → Except Err β} :
    ∀ {l : List α} {bs : List β}, mapE f l = .ok bs → ∀ a ∈ l, ∃ b ∈ bs, f a = .ok b := by
  intro l
  induction l with
  | nil => intro bs _ a ha; exact absurd ha (by simp)
  | cons x xs ih =>
    intro bs h a ha
    simp only [mapE] at h
    cases hf : f x with
    | error e => rw [hf] at h; exact absurd h (by simp)
    | ok b =>
      rw [hf] at h
      cases hm : mapE f xs with
      | error e => rw [hm] at h; exact absurd h (by simp)
      | ok bs' =>
        rw [hm] at h
        cases h
        rcases List.mem_cons.mp ha with rfl | ha'
        · exact ⟨b, by simp, hf⟩
        · rcases ih hm a ha' with ⟨b', hb', hfb'⟩
          exact ⟨b', by simp [hb'], hfb'⟩

theorem foldE_error_of_bad_elem {α β : Type _} {f : β → α → Except Err β} {a : α}
    (hbad : ∀ x : β, ∃ e, f x a = .error e) :
    ∀ (l : List α) (x : β), a ∈ l → ∃ e, foldE f x l = .error e := by
  intro l
  induction l with
  | nil => intro x ha; exact absurd ha (by simp)
  | cons b bs ih =>
    intro x ha
    simp only [foldE]
    cases hf : f x b with
    | error e => exact ⟨e, rfl⟩
    | ok x' =>
      rcases List.mem_cons.mp ha with rfl | ha'
      · rcases hbad x with ⟨e, he⟩
        rw [hf] at he
        exact absurd he (by simp)
      · exact ih x' ha'

theorem find?_map_keys {upd : String × List DataArr → String × List DataArr}
    (hkeys : ∀ p, (upd p).1 = p.1) (k : String) :
    ∀ l : List (String × List DataArr),
      (l.map upd).find? (fun p => p.1 = k) = (l.find? (fun p => p.1 = k)).map upd := by
  intro l
  induction l with
  | nil => rfl
  | cons p ps ih =>
    by_cases hp : p.1 = k
    · rw [List.map_cons, List.find?_cons_of_pos _ (by simp [hkeys, hp]),
        List.find?_cons_of_pos _ (by simp [hp])]
      rfl
    · rw [List.map_cons, List.find?_cons_of_neg _ (by simp [hkeys, hp]),
        List.find?_cons_of_neg _ (by simp [hp]), ih]

theorem find?_append_pairs (k : String) :
    ∀ l1 l2 : List (String × List DataArr),
      (l1 ++ l2).find? (fun p => p.1 = k)
        = ((l1.find? (fun p => p.1 = k)).orElse (fun _ => l2.find? (fun p => p.1 = k))) := by
  intro l1 l2
  induction l1 with
  | nil => rfl
  | cons p ps ih =>
    by_cases hp : p.1 = k
    · rw [List.cons_append, List.find?_cons_of_pos _ (by simp [hp]),
        List.find?_cons_of_pos _ (by simp [hp])]
      rfl
    · rw [List.cons_append, List.find?_cons_of_neg _ (by simp [hp]),
        List.find?_cons_of_neg _ (by simp [hp]), ih]

/-- Shape of an `expand_dims(dim)` result: `dim` leads and has size 1. -/
def isExpanded (dim : String) (ev : DataArr) : Prop :=
  ev.dims.headD "" = dim ∧ ev.dims ≠ [] ∧ ev.shape.headD 0 = 1

theorem expandDimsE_ok {A ev : DataArr} {d : String} (h : expandDimsE A d = .ok ev) :
    isExpanded d ev := by
  unfold expandDimsE at h
  by_cases hd : d ∈ A.dims
  · rw [if_pos hd] at h
    exact absurd h (by simp)
  · rw [if_neg hd] at h
    cases h
    exact ⟨rfl, by simp [DataArr.dims], rfl⟩

theorem foldl_add_ones : ∀ (l : List Nat), (∀ x ∈ l, x = 1) →
    ∀ m : Nat, l.foldl (· + ·) m = m + l.length := by
  intro l
  induction l with
  | nil => intro _ m; simp
  | cons x xs ih =>
    intro h m
    rw [List.foldl_cons, ih (fun y hy => h y (by simp [hy])), h x (by simp)]
    simp only [List.length_cons]
    omega

theorem concatE_expanded_size {vs : List DataArr} {dim : String} {cv : DataArr}
    (hne : vs ≠ []) (hexp : ∀ ev ∈ vs, isExpanded dim ev)
    (h : concatE vs dim = .ok cv) :
    cv.sizeOfDim dim = some vs.length := by
  unfold concatE at h
  cases vs with
  | nil => exact absurd rfl hne
  | cons p0 rest =>
    simp only [] at h
    have hp0 := hexp p0 (by simp)
    have hdin : dim ∈ p0.dims := by
      rcases hp0 with ⟨hh, hne', _⟩
      cases hd : p0.dims with
      | nil => exact absurd hd hne'
      | cons a as =>
        rw [hd] at hh
        simp only [List.headD_cons] at hh
        rw [hh]
        simp
    rw [if_neg (by
      intro hall
      have := List.all_eq_true.mp hall p0 (by simp)
      simp only [decide_eq_true_eq] at this
      exact this hdin)] at h
    rw [if_pos (by
      rw [List.all_eq_true]
      intro ev hev
      rcases hexp ev hev with ⟨hh, hne', _⟩
      simp only [decide_eq_true_eq]
      exact ⟨hh, hne'⟩)] at h
    simp only [Except.ok.injEq] at h
    subst h
    have hdims0 : p0.dims.headD "" = dim := hp0.1
    have hsum : ((p0 :: rest).map (fun p => p.shape.headD 0)).foldl (· + ·) 0
        = (p0 :: rest).length := by
      rw [foldl_add_ones _ (by
        intro x hx
        rcases List.mem_map.mp hx with ⟨ev, hev, rfl⟩
        exact (hexp ev hev).2.2) 0]
      simp
    have hd : ∃ as, p0.dims = dim :: as := by
      cases hcase : p0.dims with
      | nil => exact absurd hcase hp0.2.1
      | cons a as =>
        refine ⟨as, ?_⟩
        rw [hcase] at hdims0
        simp only [List.headD_cons] at hdims0
        rw [hdims0]
    obtain ⟨as, hd⟩ := hd
    rw [hd]
    simp only [DataArr.sizeOfDim, DataArr.dims, DataArr.shape, List.indexOf_cons_self]
    rw [if_pos (by simp), List.getD_cons_zero]
    exact congrArg some hsum

theorem addEntry_keyLen_self (acc2 : List (String × List DataArr)) (k : String) (ev : DataArr) :
    keyLen (addEntry acc2 k ev) k = keyLen acc2 k + 1 := by
  unfold addEntry keyLen
  have hkeys : ∀ p : String × List DataArr,
      ((fun p => if p.1 = k then (p.1, p.2 ++ [ev]) else p) p).1 = p.1 := by
    intro p
    by_cases hp : p.1 = k <;> simp [hp]
  cases hf : acc2.find? (fun p => p.1 = k) with
  | none =>
    simp only []
    rw [find?_append_pairs]
    rw [hf]
    simp [List.find?]
  | some q =>
    simp only []
    rw [find?_map_keys hkeys, hf]
    have hq : q.1 = k := by simpa using List.find?_some hf
    simp [hq]

theorem addEntry_keyLen_other (acc2 : List (String × List DataArr)) (k k' : String)
    (ev : DataArr) (hne : k' ≠ k) :
    keyLen (addEntry acc2 k ev) k' = keyLen acc2 k' := by
  unfold addEntry keyLen
  have hkeys : ∀ p : String × List DataArr,
      ((fun p => if p.1 = k then (p.1, p.2 ++ [ev]) else p) p).1 = p.1 := by
    intro p
    by_cases hp : p.1 = k <;> simp [hp]
  cases hf : acc2.find? (fun p => p.1 = k) with
  | none =>
    simp only []
    rw [find?_append_pairs]
    cases hf' : acc2.find? (fun p => p.1 = k') with
    | none => simp [List.find?, Ne.symm hne]
    | some q => simp
  | some q =>
    simp only []
    rw [find?_map_keys hkeys]
    cases hf' : acc2.find? (fun p => p.1 = k') with
    | none => simp
    | some q' =>
      have hq' : q'.1 = k' := by simpa using List.find?_some hf'
      simp [hq', hne]

theorem addEntry_keysNodup (acc2 : List (String × List DataArr)) (k : String) (ev : DataArr)
    (h : (acc2.map (·.1)).Nodup) : ((addEntry acc2 k ev).map (·.1)).Nodup := by
  unfold addEntry
  have hkeys : ∀ p : String × List DataArr,
      ((fun p => if p.1 = k then (p.1, p.2 ++ [ev]) else p) p).1 = p.1 := by
    intro p
    by_cases hp : p.1 = k <;> simp [hp]
  cases hf : acc2.find? (fun p => p.1 = k) with
  | none =>
    simp only []
    have hnotin : k ∉ acc2.map (·.1) := by
      intro hmem
      rcases List.mem_map.mp hmem with ⟨p, hp, hpk⟩
      have := List.find?_eq_none.mp hf p hp
      simp [hpk] at this
    simp only [List.map_append, List.map_cons, List.map_nil]
    rw [List.nodup_append]
    refine ⟨h, by simp, ?_⟩
    intro a ha hak
    simp only [List.mem_cons, List.not_mem_nil, or_false] at hak
    subst hak
    exact hnotin ha
  | some q =>
    simp only [List.map_map]
    have : ((fun p : String × List DataArr => p.1) ∘
        (fun p => if p.1 = k then (p.1, p.2 ++ [ev]) else p)) = fun p => p.1 := by
      funext p
      exact hkeys p
    rw [this]
    exact h

theorem addEntry_entries (acc2 : List (String × List DataArr)) (k : String) (ev : DataArr)
    (P : DataArr → Prop) (hacc : ∀ p ∈ acc2, ∀ x ∈ p.2, P x) (hev : P ev) :
    ∀ p ∈ addEntry acc2 k ev, ∀ x ∈ p.2, P x := by
  unfold addEntry
  cases hf : acc2.find? (fun p => p.1 = k) with
  | none =>
    simp only []
    intro p hp x hx
    rcases List.mem_append.mp hp with hm | hm
    · exact hacc p hm x hx
    · simp at hm
      subst hm
      simp at hx
      subst hx
      exact hev
  | some q =>
    simp only []
    intro p hp x hx
    rcases List.mem_map.mp hp with ⟨p', hp', rfl⟩
    by_cases hp1 : p'.1 = k
    · simp only [if_pos hp1] at hx
      rcases List.mem_append.mp hx with hm | hm
      · exact hacc p' hp' x hm
      · simp at hm
        subst hm
        exact hev
    · simp only [if_neg hp1] at hx
      exact hacc p' hp' x hx

theorem collectInner (dim : String) :
    ∀ (attrs : List (String × DataArr)) (acc2 acc2' : List (String × List DataArr)),
      foldE (fun acc2 kv => do
        let ev ← expandDimsE kv.2 dim
        Except.ok (addEntry acc2 kv.1 ev)) acc2 attrs = .ok acc2' →
      (attrs.map (·.1)).Nodup →
      (acc2.map (·.1)).Nodup →
      (∀ p ∈ acc2, ∀ x ∈ p.2, isExpanded dim x) →
      ((acc2'.map (·.1)).Nodup ∧
        (∀ p ∈ acc2', ∀ x ∈ p.2, isExpanded dim x) ∧
        ∀ k, keyLen acc2' k
          = keyLen acc2 k + (if k ∈ attrs.map (·.1) then 1 else 0)) := by
  intro attrs
  induction attrs with
  | nil =>
    intro acc2 acc2' h _ hnd hent
    simp only [foldE] at h
    cases h
    exact ⟨hnd, hent, fun k => by simp⟩
  | cons kv rest ih =>
    intro acc2 acc2' h hA hnd hent
    obtain ⟨k0, v0⟩ := kv
    simp only [foldE] at h
    cases hev : expandDimsE v0 dim with
    | error e =>
      rw [hev] at h
      exact absurd h (by simp [Bind.bind, Except.bind])
    | ok ev =>
      rw [hev] at h
      simp only [Bind.bind, Except.bind] at h
      have hAc : k0 ∉ rest.map (·.1) ∧ (rest.map (·.1)).Nodup := by
        simpa using hA
      have hstep := ih (addEntry acc2 k0 ev) acc2' h hAc.2
        (addEntry_keysNodup acc2 k0 ev hnd)
        (addEntry_entries acc2 k0 ev _ hent (expandDimsE_ok hev))
      refine ⟨hstep.1, hstep.2.1, ?_⟩
      intro k
      rw [hstep.2.2 k]
      by_cases hk : k = k0
      · subst hk
        rw [addEntry_keyLen_self]
        simp [hAc.1]
      · rw [addEntry_keyLen_other _ _ _ _ hk]
        by_cases hmem : k ∈ rest.map (·.1) <;> simp [hmem, hk, Ne.symm hk]

theorem collectOuter (dim : String) :
    ∀ (survivors : List DataArr) (acc L : List (String × List DataArr)),
      foldE (fun acc arr =>
        foldE (fun acc2 kv => do
          let ev ← expandDimsE kv.2 dim
          Except.ok (addEntry acc2 kv.1 ev)) acc arr.attrs) acc survivors = .ok L →
      (∀ a ∈ survivors, (a.attrs.map (·.1)).Nodup) →
      (acc.map (·.1)).Nodup →
      (∀ p ∈ acc, ∀ x ∈ p.2, isExpanded dim x) →
      ((L.map (·.1)).Nodup ∧
        (∀ p ∈ L, ∀ x ∈ p.2, isExpanded dim x) ∧
        ∀ k, keyLen L k
          = keyLen acc k + (survivors.filter (fun a => decide (k ∈ attrNames a))).length) := by
  intro survivors
  induction survivors with
  | nil =>
    intro acc L h _ hnd hent
    simp only [foldE] at h
    cases h
    exact ⟨hnd, hent, fun k => by simp⟩
  | cons arr rest ih =>
    intro acc L h hsur hnd hent
    simp only [foldE] at h
    cases hstep : foldE (fun acc2 kv => do
        let ev ← expandDimsE kv.2 dim
        Except.ok (addEntry acc2 kv.1 ev)) acc arr.attrs with
    | error e => rw [hstep] at h; exact absurd h (by simp)
    | ok accb =>
      rw [hstep] at h
      have hinner := collectInner dim arr.attrs acc accb hstep
        (hsur arr (by simp)) hnd hent
      have houter := ih accb L h (fun a ha => hsur a (by simp [ha]))
        hinner.1 hinner.2.1
      refine ⟨houter.1, houter.2.1, ?_⟩
      intro k
      rw [houter.2.2 k, hinner.2.2 k]
      rw [List.filter_cons]
      by_cases hmem : k ∈ attrNames arr
      · have : k ∈ arr.attrs.map (·.1) := hmem
        simp [hmem, this]
        omega
      · have : k ∉ arr.attrs.map (·.1) := hmem
        simp [hmem, this]

theorem except_error_of_not_ok {α : Type _} {x : Except Err α} (h : ∀ v, x ≠ .ok v) :
    ∃ e, x = .error e := by
  cases x with
  | error e => exact ⟨e, rfl⟩
  | ok v => exact absurd rfl (h v)

theorem length_filter_lt {α : Type _} (p : α → Bool) :
    ∀ (l : List α) (b : α), b ∈ l → ¬ p b = true → (l.filter p).length < l.length := by
  intro l
  induction l with
  | nil => intro b hb; exact absurd hb (by simp)
  | cons x xs ih =>
    intro b hb hpb
    rcases List.mem_cons.mp hb with rfl | hb'
    · rw [List.filter_cons_of_neg hpb]
      simp only [List.length_cons]
      exact Nat.lt_succ_of_le (List.length_filter_le p xs)
    · by_cases hx : p x
      · rw [List.filter_cons_of_pos hx]
        simp only [List.length_cons]
        exact Nat.succ_lt_succ (ih b hb' hpb)
      · rw [List.filter_cons_of_neg (by simpa using hx)]
        simp only [List.length_cons]
        exact Nat.lt_succ_of_lt (ih b hb' hpb)

theorem concatE_new_dim_size {parts : List DataArr} {dim : String} {cv : DataArr}
    (hnodim : ∀ p ∈ parts, dim ∉ p.dims) (h : concatE parts dim = .ok cv) :
    cv.sizeOfDim dim = some parts.length := by
  unfold concatE at h
  cases parts with
  | nil => exact absurd h (by simp)
  | cons p0 rest =>
    simp only [] at h
    rw [if_pos (by
      rw [List.all_eq_true]
      intro p hp
      simpa using hnodim p hp)] at h
    simp only [Except.ok.injEq] at h
    subst h
    simp [DataArr.sizeOfDim, DataArr.dims, DataArr.shape, List.indexOf_cons_self]

/-- C6: during reassembly, whenever two surviving per-index results (both
free of the concatenation dimension, as every slice produced by
`apply_helper` is, and with xarray-dict attribute keys) carry different
sets of attribute names, the level fails: the deficient attribute's
concatenation is shorter than the level's coordinate, and re-attaching
the coordinate raises a conflicting-sizes error; no output is produced. -/
theorem assembleLevel_attr_mismatch (dim : String) (asm0 : DataArr)
    (results : List (Option DataArr))
    (hnodim : ∀ a, some a ∈ results → dim ∉ a.dims)
    (hnodattrs : ∀ a, some a ∈ results → (a.attrs.map (·.1)).Nodup)
    (a b : DataArr) (ha : some a ∈ results) (hb : some b ∈ results)
    (k : String) (hka : k ∈ attrNames a) (hkb : k ∉ attrNames b) :
    ∃ e, assembleLevel dim asm0 results = .error e := by
  apply except_error_of_not_ok
  intro v hv
  unfold assembleLevel at hv
  simp only [] at hv
  rcases exBind_ok_iff.mp hv with ⟨attrsLists, hcol, hv1⟩
  have hmemS : ∀ x : DataArr, x ∈ results.filterMap id ↔ some x ∈ results := by
    intro x
    simp [List.mem_filterMap]
  have haS : a ∈ results.filterMap id := (hmemS a).mpr ha
  have hbS : b ∈ results.filterMap id := (hmemS b).mpr hb
  unfold collectAttrsE at hcol
  have hcollect := collectOuter dim (results.filterMap id) [] attrsLists hcol
    (fun x hx => hnodattrs x ((hmemS x).mp hx)) (by simp) (by simp)
  obtain ⟨hLnd, hLent, hLcount⟩ := hcollect
  have hmk : keyLen attrsLists k
      = ((results.filterMap id).filter (fun x => decide (k ∈ attrNames x))).length := by
    rw [hLcount k]
    simp [keyLen, List.find?]
  have hmklt : keyLen attrsLists k < (results.filterMap id).length := by
    rw [hmk]
    exact length_filter_lt _ _ b hbS (by simpa using hkb)
  have hmkpos : 0 < keyLen attrsLists k := by
    rw [hmk]
    have : a ∈ (results.filterMap id).filter (fun x => decide (k ∈ attrNames x)) :=
      List.mem_filter.mpr ⟨haS, by simpa using hka⟩
    cases hcase : (results.filterMap id).filter (fun x => decide (k ∈ attrNames x)) with
    | nil => rw [hcase] at this; exact absurd this (by simp)
    | cons y ys => simp [hcase]
  have hentry : ∃ vs, (k, vs) ∈ attrsLists ∧ vs.length = keyLen attrsLists k := by
    unfold keyLen at hmkpos ⊢
    cases hf : attrsLists.find? (fun p => p.1 = k) with
    | none => rw [hf] at hmkpos; simp at hmkpos
    | some p =>
      obtain ⟨k', vs⟩ := p
      have hk' : k' = k := by simpa using List.find?_some hf
      subst hk'
      exact ⟨vs, List.mem_of_find?_eq_some hf, rfl⟩
  obtain ⟨vs, hvsmem, hvslen⟩ := hentry
  rw [if_neg (by
    intro hemp
    rw [List.isEmpty_iff] at hemp
    rw [hemp] at haS
    exact absurd haS (by simp))] at hv1
  rcases exBind_ok_iff.mp hv1 with ⟨xarr, hconcat, hv2⟩
  rcases exBind_ok_iff.mp hv2 with ⟨cattrs, hcat, hv3⟩
  rcases exBind_ok_iff.mp hv3 with ⟨c0, hc0, hv4⟩
  rcases exBind_ok_iff.mp hv4 with ⟨x1, hset, hv5⟩
  rcases exBind_ok_iff.mp hv5 with ⟨x2, hfold, _⟩
  have hxsz := concatE_new_dim_size
    (fun p hp => hnodim p ((hmemS p).mp hp)) hconcat
  have hc0len : c0.values.length = (results.filterMap id).length := by
    unfold setCoordE at hset
    by_cases hcond : xarr.sizeOfDim dim = some c0.values.length
    · rw [hxsz] at hcond
      exact (Option.some.inj hcond).symm
    · rw [if_neg hcond] at hset
      exact absurd hset (by simp)
  rcases mapE_ok_mem hcat (k, vs) hvsmem with ⟨pcv, hpcvmem, hg⟩
  rcases exBind_ok_iff.mp hg with ⟨cv, hcv, hpcv⟩
  have hvsne : vs ≠ [] := by
    intro h0
    rw [h0] at hvslen
    simp at hvslen
    omega
  have hcvsz := concatE_expanded_size hvsne
    (fun ev hev => hLent (k, vs) hvsmem ev hev) hcv
  have hpcveq : pcv = (k, cv) := by
    simpa using hpcv.symm
  subst hpcveq
  have hbad : ∀ x : DataArr, ∃ e,
      (do
        let cv' ← setCoordE (k, cv).2 dim dim c0.values
        Except.ok (x.setAttr (k, cv).1 cv')) = Except.error (ε := Err) e := by
    intro x
    have hne2 : ¬ cv.sizeOfDim dim = some c0.values.length := by
      rw [hcvsz, hc0len]
      intro hcon
      have := Option.some.inj hcon
      omega
    show ∃ e, (setCoordE cv dim dim c0.values >>= fun cv' =>
      Except.ok (x.setAttr k cv')) = Except.error e
    unfold setCoordE
    rw [if_neg hne2]
    exact ⟨Err.valueError, rfl⟩
  rcases @foldE_error_of_bad_elem (String × DataArr) DataArr
      (fun x kv => do
        let cv ← setCoordE kv.2 dim dim c0.values
        Except.ok (x.setAttr kv.1 cv)) (k, cv) hbad cattrs x1 hpcvmem with ⟨e, he⟩
  rw [he] at hfold
  exact absurd hfold (by simp)

/-- Witness for C6 at two concrete survivors with different attribute
name sets. -/
theorem assembleLevel_attr_mismatch_witness :
    ∃ e, assembleLevel "s"
      (.mk ["s"] [2] (fun _ => 0) [⟨"s", ["s"], [0, 1]⟩] [])
      [some (.mk ["x"] [1] (fun _ => 1) []
          [("k", .mk [] [] (fun _ => 5) [] [])]),
       some (.mk ["x"] [1] (fun _ => 2) [] [])] = .error e := by
  refine assembleLevel_attr_mismatch "s" _ _ ?_ ?_
    (.mk ["x"] [1] (fun _ => 1) [] [("k", .mk [] [] (fun _ => 5) [] [])])
    (.mk ["x"] [1] (fun _ => 2) [] [])
    (by simp) (by simp) "k" (by simp [attrNames, DataArr.attrs]) (by simp [attrNames, DataArr.attrs])
  · intro a hac
    simp only [List.mem_cons, List.not_mem_nil, or_false, Option.some.injEq] at hac
    rcases hac with rfl | rfl <;> decide
  · intro a hac
    simp only [List.mem_cons, List.not_mem_nil, or_false, Option.some.injEq] at hac
    rcases hac with rfl | rfl <;> decide

theorem filter_not_mem_singleton {rest : List String} {d : String} (h : d ∉ rest) :
    rest.filter (fun x => x ∉ [d]) = rest := by
  induction rest with
  | nil => rfl
  | cons a as ih =>
    have had : a ≠ d := fun he => h (by simp [he])
    rw [List.filter_cons_of_pos (by simp [had]),
      ih (fun hm => h (by simp [hm]))]

theorem leading_order_self {rest : List String} {d : String} (h : d ∉ rest) :
    [d] ++ (d :: rest).filter (fun x => x ∉ [d]) = d :: rest := by
  rw [List.filter_cons_of_neg (by simp), filter_not_mem_singleton h]
  rfl

theorem transposeCore_self_shape (A : DataArr) (hnd : A.dims.Nodup)
    (hlen : A.shape.length = A.dims.length) :
    (transposeCore A A.dims).shape = A.shape := by
  simp only [transposeCore, DataArr.shape]
  exact map_getD_indexOf_eq A.dims A.shape 0 hnd hlen

theorem transposeCore_self_data (A : DataArr) (hnd : A.dims.Nodup) (idx : List Nat)
    (hlen : idx.length = A.dims.length) :
    (transposeCore A A.dims).data idx = A.data idx := by
  simp only [transposeCore, DataArr.data]
  rw [map_getD_indexOf_eq A.dims idx 0 hnd hlen]

theorem filterMap_eq_map_of_some {α β : Type _} {f : α → Option β} {g : α → β} :
    ∀ {l : List α}, (∀ a ∈ l, f a = some (g a)) → l.filterMap f = l.map g := by
  intro l
  induction l with
  | nil => intro _; rfl
  | cons a as ih =>
    intro h
    rw [List.filterMap_cons, h a (by simp), List.map_cons, ih (fun x hx => h x (by simp [hx]))]

theorem find?_coords_nodup_self {l : List Coord} (hnd : (l.map Coord.name).Nodup) :
    ∀ c ∈ l, l.find? (fun c' => c'.name = c.name) = some c := by
  induction l with
  | nil => intro c hc; exact absurd hc (by simp)
  | cons a as ih =>
    intro c hc
    have hpair : (∀ z ∈ as, ¬ z.name = a.name) ∧ (as.map Coord.name).Nodup := by
      simpa [eq_comm] using hnd
    rcases List.mem_cons.mp hc with rfl | hc'
    · rw [List.find?_cons_of_pos _ (by simp)]
    · rw [List.find?_cons_of_neg _ (by
        simp only [decide_eq_true_eq]
        intro he
        exact hpair.1 c hc' (by rw [he])), ih hpair.2 c hc']

theorem updateCoord_append_of_no_name {l : List Coord} {z : Coord}
    (h : ∀ c ∈ l, c.name ≠ z.name) : updateCoord l z = l ++ [z] := by
  induction l with
  | nil => rfl
  | cons a as ih =>
    rw [updateCoord, if_neg (h a (by simp)), ih (fun c hc => h c (by simp [hc]))]
    rfl

theorem updateCoord_map_restore :
    ∀ (l : List Coord) (G : Coord → Coord) (cd : Coord),
      (l.map Coord.name).Nodup →
      (∀ c ∈ l, (G c).name = c.name) →
      (∀ c ∈ l, c.name ≠ cd.name → G c = c) →
      cd ∈ l →
      updateCoord (l.map G) cd = l := by
  intro l
  induction l with
  | nil => intro G cd _ _ _ hcd; exact absurd hcd (by simp)
  | cons a as ih =>
    intro G cd hnd hname hfix hcd
    have hpair : (∀ z ∈ as, ¬ z.name = a.name) ∧ (as.map Coord.name).Nodup := by
      simpa [eq_comm] using hnd
    by_cases han : a.name = cd.name
    · have hacd : a = cd := by
        rcases List.mem_cons.mp hcd with rfl | hcd'
        · rfl
        · exact absurd (han.symm) (hpair.1 cd hcd')
      rw [List.map_cons, updateCoord, if_pos (by rw [hname a (by simp), han])]
      have hfixas : ∀ c ∈ as, G c = c := by
        intro c hcmem
        refine hfix c (by simp [hcmem]) ?_
        intro he
        exact hpair.1 c hcmem (by rw [he, han])
      rw [List.map_congr_left hfixas]
      simp [hacd]
    · have hGa : G a = a := hfix a (by simp) han
      have hcd' : cd ∈ as := by
        rcases List.mem_cons.mp hcd with rfl | hcd'
        · exact absurd rfl han
        · exact hcd'
      rw [List.map_cons, updateCoord, if_neg (by rw [hGa]; exact han), hGa,
        ih G cd hpair.2 (fun c hc => hname c (by simp [hc]))
          (fun c hc => hfix c (by simp [hc])) hcd']

theorem concatPick_ones :
    ∀ (sizes : List Nat), (∀ x ∈ sizes, x = 1) →
      ∀ i, i < sizes.length → concatPick sizes i = (i, 0) := by
  intro sizes
  induction sizes with
  | nil => intro _ i hi; exact absurd hi (by simp)
  | cons s ss ih =>
    intro h i hi
    have hs : s = 1 := h s (by simp)
    subst hs
    cases i with
    | zero => rw [concatPick, if_pos (by omega)]
    | succ j =>
      rw [concatPick, if_neg (by omega)]
      have : j + 1 - 1 = j := by omega
      rw [this, ih (fun x hx => h x (by simp [hx])) j (by simpa using hi)]

theorem getD_map_range {β : Type _} (g : Nat → β) (n i : Nat) (dflt : β) (h : i < n) :
    ((List.range n).map g).getD i dflt = g i := by
  rw [List.getD_eq_getElem?_getD, List.getElem?_map, List.getElem?_range h]
  rfl

theorem headD_map_range {β : Type _} (g : Nat → β) (n : Nat) (dflt : β) (h : 0 < n) :
    ((List.range n).map g).headD dflt = g 0 := by
  cases n with
  | zero => exact absurd h (by simp)
  | succ m =>
    rw [List.range_succ_eq_map]
    rfl

theorem foldE_ok_of_ex {α β : Type _} {f : β → α → Except Err β} :
    ∀ {l : List α}, (∀ (x : β) (a : α), a ∈ l → ∃ y, f x a = .ok y) →
      ∀ x : β, ∃ y, foldE f x l = .ok y := by
  intro l
  induction l with
  | nil => intro _ x; exact ⟨x, rfl⟩
  | cons a as ih =>
    intro h x
    rcases h x a (by simp) with ⟨y, hy⟩
    rw [foldE, hy]
    exact ih (fun x' a' ha' => h x' a' (by simp [ha'])) y

theorem mapE_ok_of_ex {α β : Type _} {f : α → Except Err β} :
    ∀ {l : List α}, (∀ a ∈ l, ∃ b, f a = .ok b) → ∃ bs, mapE f l = .ok bs := by
  intro l
  induction l with
  | nil => intro _; exact ⟨[], rfl⟩
  | cons a as ih =>
    intro h
    rcases h a (by simp) with ⟨b, hb⟩
    rcases ih (fun a' ha' => h a' (by simp [ha'])) with ⟨bs, hbs⟩
    rw [mapE, hb, hbs]
    exact ⟨b :: bs, rfl⟩

theorem updateAttr_keys {l : List (String × DataArr)} {k : String} (v : DataArr)
    (h : k ∈ l.map (·.1)) : (updateAttr l k v).map (·.1) = l.map (·.1) := by
  induction l with
  | nil => exact absurd h (by simp)
  | cons p ps ih =>
    by_cases hp : p.1 = k
    · rw [updateAttr, if_pos hp]
      simp [hp]
    · have h' : k = p.1 ∨ k ∈ ps.map (·.1) := by
        rw [List.map_cons] at h
        exact List.mem_cons.mp h
      rcases h' with he | hm
      · exact absurd he.symm hp
      · rw [updateAttr, if_neg hp, List.map_cons, List.map_cons, ih hm]

/-- The value produced by a successful `expand_dims(d)`. -/
def expandOf (d : String) (A : DataArr) : DataArr :=
  .mk (d :: A.dims) (1 :: A.shape) (fun idx => A.data idx.tail) A.coords A.attrs

theorem expandDimsE_eq {A : DataArr} {d : String} (h : d ∉ A.dims) :
    expandDimsE A d = .ok (expandOf d A) := by
  rw [expandDimsE, if_neg h]
  rfl

theorem withAttrs_attrs (A : DataArr) (l : List (String × DataArr)) :
    (A.withAttrs l).attrs = l := by
  cases A; rfl

theorem addEntry_src (acc2 : List (String × List DataArr)) (k : String) (ev : DataArr) :
    ∀ p ∈ addEntry acc2 k ev, ∀ x ∈ p.2,
      (∃ q ∈ acc2, q.1 = p.1 ∧ x ∈ q.2) ∨ (p.1 = k ∧ x = ev) := by
  unfold addEntry
  cases hf : acc2.find? (fun p => p.1 = k) with
  | none =>
    simp only []
    intro p hp x hx
    rcases List.mem_append.mp hp with hm | hm
    · exact Or.inl ⟨p, hm, rfl, hx⟩
    · simp only [List.mem_cons, List.not_mem_nil, or_false] at hm
      subst hm
      simp only [List.mem_cons, List.not_mem_nil, or_false] at hx
      exact Or.inr ⟨rfl, hx⟩
  | some q =>
    simp only []
    intro p hp x hx
    rcases List.mem_map.mp hp with ⟨p', hp', rfl⟩
    by_cases hp1 : p'.1 = k
    · simp only [if_pos hp1] at hx ⊢
      rcases List.mem_append.mp hx with hm | hm
      · exact Or.inl ⟨p', hp', rfl, hm⟩
      · simp only [List.mem_cons, List.not_mem_nil, or_false] at hm
        exact Or.inr ⟨hp1, hm⟩
    · simp only [if_neg hp1] at hx ⊢
      exact Or.inl ⟨p', hp', rfl, hx⟩

theorem addEntry_ne_nil (acc2 : List (String × List DataArr)) (k : String) (ev : DataArr)
    (h : ∀ q ∈ acc2, q.2 ≠ []) : ∀ p ∈ addEntry acc2 k ev, p.2 ≠ [] := by
  unfold addEntry
  cases hf : acc2.find? (fun p => p.1 = k) with
  | none =>
    simp only []
    intro p hp
    rcases List.mem_append.mp hp with hm | hm
    · exact h p hm
    · simp only [List.mem_cons, List.not_mem_nil, or_false] at hm
      subst hm
      simp
  | some q =>
    simp only []
    intro p hp
    rcases List.mem_map.mp hp with ⟨p', hp', rfl⟩
    by_cases hp1 : p'.1 = k
    · simp only [if_pos hp1]
      simp
    · simp only [if_neg hp1]
      exact h p' hp'

theorem collectInner_src (dim : String) :
    ∀ (attrs : List (String × DataArr)) (acc2 acc2' : List (String × List DataArr)),
      foldE (fun acc2 kv => do
        let ev ← expandDimsE kv.2 dim
        Except.ok (addEntry acc2 kv.1 ev)) acc2 attrs = .ok acc2' →
      ∀ p ∈ acc2', ∀ x ∈ p.2,
        (∃ q ∈ acc2, q.1 = p.1 ∧ x ∈ q.2) ∨
        ∃ v0, (p.1, v0) ∈ attrs ∧ expandDimsE v0 dim = .ok x := by
  intro attrs
  induction attrs with
  | nil =>
    intro acc2 acc2' h p hp x hx
    simp only [foldE] at h
    cases h
    exact Or.inl ⟨p, hp, rfl, hx⟩
  | cons kv rest ih =>
    intro acc2 acc2' h p hp x hx
    obtain ⟨k0, v0⟩ := kv
    simp only [foldE] at h
    cases hev : expandDimsE v0 dim with
    | error e =>
      rw [hev] at h
      exact absurd h (by simp [Bind.bind, Except.bind])
    | ok ev =>
      rw [hev] at h
      simp only [Bind.bind, Except.bind] at h
      rcases ih (addEntry acc2 k0 ev) acc2' h p hp x hx with ⟨q, hq, hqk, hqx⟩ | ⟨w, hw, hwe⟩
      · rcases addEntry_src acc2 k0 ev q hq x hqx with ⟨q', hq', hq'k, hq'x⟩ | ⟨hqk0, hxev⟩
        · exact Or.inl ⟨q', hq', by rw [hq'k, hqk], hq'x⟩
        · refine Or.inr ⟨v0, ?_, ?_⟩
          · rw [← hqk, hqk0]
            simp
          · rw [hev, hxev]
      · exact Or.inr ⟨w, by simp [hw], hwe⟩

theorem collectInner_ne (dim : String) :
    ∀ (attrs : List (String × DataArr)) (acc2 acc2' : List (String × List DataArr)),
      foldE (fun acc2 kv => do
        let ev ← expandDimsE kv.2 dim
        Except.ok (addEntry acc2 kv.1 ev)) acc2 attrs = .ok acc2' →
      (∀ q ∈ acc2, q.2 ≠ []) → ∀ p ∈ acc2', p.2 ≠ [] := by
  intro attrs
  induction attrs with
  | nil =>
    intro acc2 acc2' h hq
    simp only [foldE] at h
    cases h
    exact hq
  | cons kv rest ih =>
    intro acc2 acc2' h hq
    obtain ⟨k0, v0⟩ := kv
    simp only [foldE] at h
    cases hev : expandDimsE v0 dim with
    | error e =>
      rw [hev] at h
      exact absurd h (by simp [Bind.bind, Except.bind])
    | ok ev =>
      rw [hev] at h
      simp only [Bind.bind, Except.bind] at h
      exact ih (addEntry acc2 k0 ev) acc2' h (addEntry_ne_nil acc2 k0 ev hq)

theorem collectOuter_src (dim : String) :
    ∀ (survivors : List DataArr) (acc L : List (String × List DataArr)),
      foldE (fun acc arr =>
        foldE (fun acc2 kv => do
          let ev ← expandDimsE kv.2 dim
          Except.ok (addEntry acc2 kv.1 ev)) acc arr.attrs) acc survivors = .ok L →
      ∀ p ∈ L, ∀ x ∈ p.2,
        (∃ q ∈ acc, q.1 = p.1 ∧ x ∈ q.2) ∨
        ∃ a ∈ survivors, ∃ v0, (p.1, v0) ∈ a.attrs ∧ expandDimsE v0 dim = .ok x := by
  intro survivors
  induction survivors with
  | nil =>
    intro acc L h p hp x hx
    simp only [foldE] at h
    cases h
    exact Or.inl ⟨p, hp, rfl, hx⟩
  | cons arr rest ih =>
    intro acc L h p hp x hx
    simp only [foldE] at h
    cases hstep : foldE (fun acc2 kv => do
        let ev ← expandDimsE kv.2 dim
        Except.ok (addEntry acc2 kv.1 ev)) acc arr.attrs with
    | error e => rw [hstep] at h; exact absurd h (by simp)
    | ok accb =>
      rw [hstep] at h
      rcases ih accb L h p hp x hx with ⟨q, hq, hqk, hqx⟩ | ⟨a, ha, w, hw, hwe⟩
      · rcases collectInner_src dim arr.attrs acc accb hstep q hq x hqx
          with ⟨q', hq', hq'k, hq'x⟩ | ⟨w, hw, hwe⟩
        · exact Or.inl ⟨q', hq', by rw [hq'k, hqk], hq'x⟩
        · exact Or.inr ⟨arr, by simp, w, by rw [hqk] at hw; exact hw, hwe⟩
      · exact Or.inr ⟨a, by simp [ha], w, hw, hwe⟩

theorem collectOuter_ne (dim : String) :
    ∀ (survivors : List DataArr) (acc L : List (String × List DataArr)),
      foldE (fun acc arr =>
        foldE (fun acc2 kv => do
          let ev ← expandDimsE kv.2 dim
          Except.ok (addEntry acc2 kv.1 ev)) acc arr.attrs) acc survivors = .ok L →
      (∀ q ∈ acc, q.2 ≠ []) → ∀ p ∈ L, p.2 ≠ [] := by
  intro survivors
  induction survivors with
  | nil =>
    intro acc L h hq
    simp only [foldE] at h
    cases h
    exact hq
  | cons arr rest ih =>
    intro acc L h hq
    simp only [foldE] at h
    cases hstep : foldE (fun acc2 kv => do
        let ev ← expandDimsE kv.2 dim
        Except.ok (addEntry acc2 kv.1 ev)) acc arr.attrs with
    | error e => rw [hstep] at h; exact absurd h (by simp)
    | ok accb =>
      rw [hstep] at h
      exact ih accb L h (collectInner_ne dim arr.attrs acc accb hstep hq)

theorem find?_pairs_nodup_self {β : Type _} {l : List (String × β)}
    (hnd : (l.map (·.1)).Nodup) :
    ∀ p ∈ l, l.find? (fun q => q.1 = p.1) = some p := by
  induction l with
  | nil => intro p hp; exact absurd hp (by simp)
  | cons a as ih =>
    intro p hp
    rw [List.map_cons] at hnd
    have hpair := List.nodup_cons.mp hnd
    rcases List.mem_cons.mp hp with rfl | hp'
    · rw [List.find?_cons_of_pos _ (by simp)]
    · rw [List.find?_cons_of_neg _ (by
        simp only [decide_eq_true_eq]
        intro he
        exact hpair.1 (by rw [he]; exact List.mem_map_of_mem _ hp')), ih hpair.2 p hp']

theorem pairs_val_eq_of_nodup_keys {β : Type _} {l : List (String × β)} {k : String}
    {v v' : β} (hnd : (l.map (·.1)).Nodup) (h : (k, v) ∈ l) (h' : (k, v') ∈ l) : v = v' := by
  have := nodup_map_inj_mem hnd (k, v) h (k, v') h' rfl
  exact congrArg Prod.snd this

theorem foldE_setCoord_ok (d : String) (vals : List Int) :
    ∀ (l : List (String × DataArr)) (x : DataArr),
      (∀ kv ∈ l, kv.2.sizeOfDim d = some vals.length) →
      foldE (fun (x : DataArr) kv => do
        let cv ← setCoordE kv.2 d d vals
        Except.ok (x.setAttr kv.1 cv)) x l
      = .ok ((l.map (fun kv => (kv.1, setCoordCore kv.2 d d vals))).foldl
          (fun x kr => x.setAttr kr.1 kr.2) x) := by
  intro l
  induction l with
  | nil => intro x _; rfl
  | cons kv rest ih =>
    intro x h
    have hsz := h kv (by simp)
    have hstep : setCoordE kv.2 d d vals = .ok (setCoordCore kv.2 d d vals) := by
      rw [setCoordE, if_pos hsz]
    simp only [foldE]
    rw [exBind_ok hstep]
    simp only []
    rw [ih (x.setAttr kv.1 (setCoordCore kv.2 d d vals)) (fun q hq => h q (by simp [hq])),
      List.map_cons, List.foldl_cons]

theorem foldl_setAttr_names :
    ∀ (rs : List (String × DataArr)) (x : DataArr),
      (∀ kr ∈ rs, kr.1 ∈ attrNames x) →
      attrNames (rs.foldl (fun x kr => x.setAttr kr.1 kr.2) x) = attrNames x := by
  intro rs
  induction rs with
  | nil => intro x _; rfl
  | cons kr rest ih =>
    intro x h
    have hset : attrNames (x.setAttr kr.1 kr.2) = attrNames x := by
      show ((x.withAttrs (updateAttr x.attrs kr.1 kr.2)).attrs).map (·.1) = attrNames x
      rw [withAttrs_attrs]
      exact updateAttr_keys kr.2 (h kr (by simp))
    rw [List.foldl_cons, ih (x.setAttr kr.1 kr.2) (fun q hq => by
      rw [hset]
      exact h q (by simp [hq])), hset]

theorem concatCoords_const {parts : List DataArr} {ev : DataArr} {d : String}
    (hne : parts ≠ []) (hall : ∀ x ∈ parts, x = ev)
    (hnd : (ev.coords.map Coord.name).Nodup) :
    concatCoords parts d = ev.coords := by
  have hhead : parts.headD default = ev := by
    cases parts with
    | nil => exact absurd rfl hne
    | cons p ps => exact hall p (by simp)
  rw [concatCoords, hhead]
  conv_rhs => rw [← List.map_id ev.coords]
  refine filterMap_eq_map_of_some ?_
  intro c hc
  have hcond : parts.all (fun p => decide (lookupCoord p c.name = some c)) = true := by
    rw [List.all_eq_true]
    intro p hp
    rw [hall p hp]
    simp [lookupCoord, find?_coords_nodup_self hnd c hc]
  rw [if_pos hcond]
  rfl

theorem concatE_const_expanded {vs : List DataArr} {v : DataArr} {d : String} {n : Nat}
    (hn : 0 < n) (hlen : vs.length = n)
    (hall : ∀ x ∈ vs, x = expandOf d v)
    (hd : d ∉ v.dims)
    (hnames : (v.coords.map Coord.name).Nodup) :
    ∃ cv, concatE vs d = .ok cv ∧
      cv.dims = d :: v.dims ∧ cv.shape = n :: v.shape ∧
      (∀ i ridx, i < n → cv.data (i :: ridx) = v.data ridx) ∧
      cv.coords = v.coords ∧ cv.attrs = v.attrs := by
  cases vs with
  | nil =>
    rw [List.length_nil] at hlen
    omega
  | cons p0 rest =>
    have hp0 : p0 = expandOf d v := hall p0 (by simp)
    have hones : ∀ x ∈ (p0 :: rest).map (fun p => p.shape.headD 0), x = 1 := by
      intro x hx
      rcases List.mem_map.mp hx with ⟨p, hp, rfl⟩
      rw [hall p hp]
      rfl
    simp only [concatE]
    rw [if_neg (by
      intro hallc
      have := List.all_eq_true.mp hallc p0 (by simp)
      simp only [decide_eq_true_eq] at this
      rw [hp0] at this
      exact this (by simp [expandOf, DataArr.dims]))]
    rw [if_pos (by
      rw [List.all_eq_true]
      intro p hp
      rw [hall p hp]
      simp [expandOf, DataArr.dims])]
    refine ⟨_, rfl, ?_, ?_, ?_, ?_, ?_⟩
    · rw [DataArr.dims, hp0]
      rfl
    · rw [DataArr.shape, foldl_add_ones _ hones 0, List.length_map, hlen, hp0, Nat.zero_add]
      rfl
    · intro i ridx hi
      rw [DataArr.data]
      simp only [List.headD_cons, List.tail_cons]
      rw [concatPick_ones _ hones i (by rw [List.length_map, hlen]; exact hi)]
      simp only []
      have hilen : i < (p0 :: rest).length := by rw [hlen]; exact hi
      rw [List.getD_eq_getElem (p0 :: rest) default hilen,
        hall _ (List.getElem_mem hilen)]
      rfl
    · rw [DataArr.coords,
        concatCoords_const (by simp) hall (by simpa [expandOf, DataArr.coords] using hnames)]
      rfl
    · rw [DataArr.attrs, hp0]
      rfl

theorem find?_map_name_nodup {l : List Coord} {g : Coord → Coord}
    (hnd : (l.map Coord.name).Nodup) (hg : ∀ x ∈ l, (g x).name = x.name) :
    ∀ c ∈ l, (l.map g).find? (fun c' => c'.name = c.name) = some (g c) := by
  induction l with
  | nil => intro c hc; exact absurd hc (by simp)
  | cons a as ih =>
    intro c hc
    rw [List.map_cons] at hnd
    have hpair := List.nodup_cons.mp hnd
    rcases List.mem_cons.mp hc with rfl | hc'
    · rw [List.map_cons, List.find?_cons_of_pos _ (by simp [hg c (by simp)])]
    · rw [List.map_cons, List.find?_cons_of_neg _ (by
        simp only [decide_eq_true_eq]
        rw [hg a (by simp)]
        intro he
        exact hpair.1 (by rw [he]; exact List.mem_map_of_mem _ hc')),
        ih hpair.2 (fun x hx => hg x (by simp [hx])) c hc']

theorem updateCoord_filterMap_restore :
    ∀ (l : List Coord) (f : Coord → Option Coord) (cd : Coord),
      (l.map Coord.name).Nodup →
      (∀ c ∈ l, ∃ c', f c = some c' ∧ c'.name = c.name ∧ (c.name ≠ cd.name → c' = c)) →
      cd ∈ l →
      updateCoord (l.filterMap f) cd = l := by
  intro l
  induction l with
  | nil => intro f cd _ _ hcd; exact absurd hcd (by simp)
  | cons a as ih =>
    intro f cd hnd hf hcd
    rw [List.map_cons] at hnd
    have hpair := List.nodup_cons.mp hnd
    rcases hf a (by simp) with ⟨a', hfa, ha'name, ha'fix⟩
    rw [List.filterMap_cons, hfa]
    by_cases han : a.name = cd.name
    · have hacd : a = cd := by
        rcases List.mem_cons.mp hcd with rfl | hcd'
        · rfl
        · exact absurd (by rw [han]; exact List.mem_map_of_mem _ hcd') hpair.1
      rw [updateCoord, if_pos (by rw [ha'name, han])]
      have hrest : as.filterMap f = as := by
        have hpt : ∀ c ∈ as, f c = some c := by
          intro c hcmem
          rcases hf c (by simp [hcmem]) with ⟨c', hfc, hcname, hcfix⟩
          have hne : c.name ≠ cd.name := by
            intro he
            exact hpair.1 (by rw [han, ← he]; exact List.mem_map_of_mem _ hcmem)
          rw [hfc, hcfix hne]
        have h1 := @filterMap_eq_map_of_some Coord Coord f (fun c => c) as hpt
        simpa using h1
      rw [hrest, hacd]
    · have ha'a : a' = a := ha'fix han
      have hcd' : cd ∈ as := by
        rcases List.mem_cons.mp hcd with rfl | hcd''
        · exact absurd rfl han
        · exact hcd''
      rw [updateCoord, if_neg (by rw [ha'a]; exact han), ha'a,
        ih f cd hpair.2 (fun c hc => hf c (by simp [hc])) hcd']

theorem sizeOfDim_cons {A : DataArr} {d : String} {ds : List String} {ss : List Nat} {n : Nat}
    (h1 : A.dims = d :: ds) (h2 : A.shape = n :: ss) : A.sizeOfDim d = some n := by
  rw [DataArr.sizeOfDim, h1, h2, List.indexOf_cons_self]
  rw [if_pos (by simp)]
  rfl

theorem iselCore_attrs (X : DataArr) (d : String) (i : Nat) :
    (iselCore X d i).attrs = X.attrs := rfl

theorem iselCore_dims (X : DataArr) (d : String) (i : Nat) :
    (iselCore X d i).dims = X.dims.eraseIdx (X.dims.indexOf d) := rfl

theorem iselCore_shape (X : DataArr) (d : String) (i : Nat) :
    (iselCore X d i).shape = X.shape.eraseIdx (X.dims.indexOf d) := rfl

theorem iselCore_data (X : DataArr) (d : String) (i : Nat) (idx : List Nat) :
    (iselCore X d i).data idx = X.data (idx.insertIdx (X.dims.indexOf d) i) := rfl

theorem iselCore_coords (X : DataArr) (d : String) (i : Nat) :
    (iselCore X d i).coords = X.coords.map (fun c =>
      if d ∈ c.dims then
        let q := c.dims.indexOf d
        let cshape := c.dims.map (fun dn => X.shape.getD (X.dims.indexOf dn) 0)
        { name := c.name, dims := c.dims.eraseIdx q,
          values := (List.range (prodNat (cshape.eraseIdx q))).map (fun j =>
            c.values.getD (flatIdx cshape ((unflatIdx (cshape.eraseIdx q) j).insertIdx q i)) 0) }
      else c) := rfl

theorem setCoordCore_dims (A : DataArr) (nm d : String) (vals : List Int) :
    (setCoordCore A nm d vals).dims = A.dims := rfl

theorem setCoordCore_shape (A : DataArr) (nm d : String) (vals : List Int) :
    (setCoordCore A nm d vals).shape = A.shape := rfl

theorem setCoordCore_data (A : DataArr) (nm d : String) (vals : List Int) :
    (setCoordCore A nm d vals).data = A.data := rfl

theorem setCoordCore_attrs (A : DataArr) (nm d : String) (vals : List Int) :
    (setCoordCore A nm d vals).attrs = A.attrs := rfl

theorem setCoordCore_coords (A : DataArr) (nm d : String) (vals : List Int) :
    (setCoordCore A nm d vals).coords
      = updateCoord A.coords { name := nm, dims := [d], values := vals } := rfl

theorem concatE_new_dim_ok {parts : List DataArr} {d : String} (hne : parts ≠ [])
    (hnodim : ∀ p ∈ parts, d ∉ p.dims) :
    concatE parts d = .ok (.mk (d :: (parts.headD default).dims)
      (parts.length :: (parts.headD default).shape)
      (fun idx => ((parts.getD (idx.headD 0) default).data) idx.tail)
      (concatCoords parts d) (parts.headD default).attrs) := by
  cases parts with
  | nil => exact absurd rfl hne
  | cons p0 ps =>
    simp only [concatE]
    rw [if_pos (by
      rw [List.all_eq_true]
      intro p hp
      simpa using hnodim p hp)]
    rfl

theorem lookupCoord_iselCore {X : DataArr} {d : String} (i : Nat) {c : Coord}
    (hnd : (X.coords.map Coord.name).Nodup) (hc : c ∈ X.coords) :
    lookupCoord (iselCore X d i) c.name = some (
      if d ∈ c.dims then
        let q := c.dims.indexOf d
        let cshape := c.dims.map (fun dn => X.shape.getD (X.dims.indexOf dn) 0)
        { name := c.name, dims := c.dims.eraseIdx q,
          values := (List.range (prodNat (cshape.eraseIdx q))).map (fun j =>
            c.values.getD (flatIdx cshape ((unflatIdx (cshape.eraseIdx q) j).insertIdx q i)) 0) }
      else c) := by
  rw [lookupCoord, iselCore_coords]
  exact find?_map_name_nodup hnd
    (fun x hx => by by_cases hdx : d ∈ x.dims <;> simp [hdx]) c hc

theorem lookupCoord_iselCore_nodim {X : DataArr} {d : String} (i : Nat) {c : Coord}
    (hnd : (X.coords.map Coord.name).Nodup) (hc : c ∈ X.coords) (hdc : d ∉ c.dims) :
    lookupCoord (iselCore X d i) c.name = some c := by
  rw [lookupCoord_iselCore i hnd hc, if_neg hdc]

theorem lookupCoord_iselCore_dim {X : DataArr} {d : String} (i : Nat) {c : Coord}
    (hnd : (X.coords.map Coord.name).Nodup) (hc : c ∈ X.coords) (hdc : d ∈ c.dims) :
    ∃ c', lookupCoord (iselCore X d i) c.name = some c' ∧ c'.name = c.name ∧
      c'.dims = c.dims.eraseIdx (c.dims.indexOf d) := by
  rw [lookupCoord_iselCore i hnd hc, if_pos hdc]
  exact ⟨_, rfl, rfl, rfl⟩

theorem no_name_of_lookupCoord_none {v : DataArr} {d : String}
    (h : lookupCoord v d = none) : ∀ c ∈ v.coords, c.name ≠ d := by
  intro c hc he
  have := List.find?_eq_none.mp h c hc
  simp [he] at this


/-- Entry of `concatCoords` for a coordinate attached to the sliced
dimension: every part holds a coordinate of that name with the same dims,
so the entry survives (kept if identical everywhere, stacked otherwise)
and keeps its name. -/
theorem concat_entry_slices (parts : List DataArr) (d : String) (x y : Coord)
    (hall : ∀ p ∈ parts, ∃ c', lookupCoord p x.name = some c' ∧ c'.dims = x.dims)
    (hxy : x.name = y.name) :
    ∃ c', (if parts.all (fun p => lookupCoord p x.name = some x) then some x
      else if parts.all (fun p => match lookupCoord p x.name with
          | some c' => c'.dims = x.dims
          | none => false) then
        some { name := x.name, dims := d :: x.dims,
               values := parts.flatMap (fun p => ((lookupCoord p x.name).getD default).values) }
      else none) = some c' ∧ c'.name = y.name ∧ (y.name ≠ y.name → c' = y) := by
  by_cases hb1 : (parts.all (fun p => decide (lookupCoord p x.name = some x)) = true)
  · rw [if_pos hb1]
    exact ⟨x, rfl, hxy, fun h => absurd rfl h⟩
  · rw [if_neg hb1]
    have h2 : parts.all (fun p => match lookupCoord p x.name with
        | some c' => decide (c'.dims = x.dims)
        | none => false) = true := by
      rw [List.all_eq_true]
      intro p hp
      rcases hall p hp with ⟨c', hc', hcd'⟩
      rw [hc']
      simpa using hcd'
    rw [if_pos h2]
    exact ⟨_, rfl, hxy, fun h => absurd rfl h⟩


/-- C2 (amended): `apply_over_dims` with the identity callable (the head
of the slice tuple) over a single walked dimension `d` preserves the main
tensor — same dims, shape, values at every valid index, and coordinates —
but does NOT return an identical attribute tree: every attribute tensor
is replicated along `d` (its dims gain `d` in front, its shape the size
of `d`), and the walked dimension's coordinate is appended to each
attribute's coordinates.  Hypotheses: `d` leads the dims (`apply`
transposes it to the front anyway), the usual xarray invariants (distinct
dims and coordinate names, shape aligned with dims, an index coordinate
for `d` of matching length, attributes free of `d` with their own
distinct coordinate names), and a positive size along `d`. -/
theorem apply_over_dims_identity_expands_attrs
    (A : DataArr) (d : String) (rest : List String) (n : Nat) (srest : List Nat) (cd : Coord)
    (hdims : A.dims = d :: rest)
    (hnd : A.dims.Nodup)
    (hshape : A.shape = n :: srest)
    (hn : 0 < n)
    (hlen : A.shape.length = A.dims.length)
    (hcd : lookupCoord A d = some cd)
    (hcddims : cd.dims = [d])
    (hcdlen : cd.values.length = n)
    (hcnames : (A.coords.map Coord.name).Nodup)
    (honlyd : ∀ c ∈ A.coords, d ∈ c.dims → c.name = d)
    (hattrkeys : (A.attrs.map (·.1)).Nodup)
    (hattrs : ∀ kv ∈ A.attrs, d ∉ kv.2.dims ∧ lookupCoord kv.2 d = none ∧
              (kv.2.coords.map Coord.name).Nodup) :
    ∃ B, applyOverDims (fun slices => slices.head?) [A] [d] = .ok (some B) ∧
      B.dims = A.dims ∧ B.shape = A.shape ∧
      (∀ i ridx, i < n → (i :: ridx).length = A.dims.length →
        B.data (i :: ridx) = A.data (i :: ridx)) ∧
      B.coords = A.coords ∧
      attrNames B = attrNames A ∧
      (∀ kv ∈ A.attrs, ∃ v', lookupAttr B kv.1 = some v' ∧
        v'.dims = d :: kv.2.dims ∧ v'.shape = n :: kv.2.shape ∧
        (∀ i ridx, i < n → v'.data (i :: ridx) = kv.2.data ridx) ∧
        v'.coords = kv.2.coords ++ [{ name := d, dims := [d], values := cd.values }] ∧
        v'.attrs = kv.2.attrs) := by
  obtain ⟨A', hA'⟩ : ∃ x, transposeCore A A.dims = x := ⟨_, rfl⟩
  have hdmem : d ∈ A.dims := by rw [hdims]; simp
  have hdrest : d ∉ rest := by
    rw [hdims] at hnd
    exact (List.nodup_cons.mp hnd).1
  have hA'dims : A'.dims = A.dims := by rw [← hA']; rfl
  have hA'shape : A'.shape = A.shape := by
    rw [← hA']
    exact transposeCore_self_shape A hnd hlen
  have hA'coords : A'.coords = A.coords := by rw [← hA']; rfl
  have hA'attrs : A'.attrs = A.attrs := by rw [← hA']; rfl
  have hA'data : ∀ idx : List Nat, idx.length = A.dims.length → A'.data idx = A.data idx := by
    intro idx hidx
    rw [← hA']
    exact transposeCore_self_data A hnd idx hidx
  have horder : [d] ++ A.dims.filter (fun x => x ∉ [d]) = A.dims := by
    rw [hdims]
    exact leading_order_self hdrest
  have htL : transposeLeadingE A [d] = .ok A' := by
    rw [transposeLeadingE, if_pos (by simp [hdmem]), horder, hA']
  have hmap1 : mapE (fun a => transposeLeadingE a [d]) [A] = .ok [A'] := by
    simp [mapE, htL]
  have hsz : A'.sizeOfDim d = some n :=
    sizeOfDim_cons (by rw [hA'dims, hdims]) (by rw [hA'shape, hshape])
  have hsizes : mapE (fun d' =>
      match A'.sizeOfDim d' with
      | some n => Except.ok n
      | none => Except.error Err.keyError) [d] = .ok [n] := by
    simp [mapE, hsz]
  have hisel : ∀ s, iselE A' d s = .ok (iselCore A' d s) := by
    intro s
    rw [iselE, if_pos (by rw [hA'dims]; exact hdmem)]
  have hresults : mapE (fun s => do
      let slices ← mapE (fun asm => iselE asm d s) [A']
      Except.ok ((fun slices : List DataArr => slices.head?) slices)) (List.range n)
      = .ok ((List.range n).map (fun s => some (iselCore A' d s))) := by
    refine mapE_ok_of_all_ok ?_
    intro s _
    have hsl : mapE (fun asm => iselE asm d s) [A'] = .ok [iselCore A' d s] := by
      simp [mapE, hisel s]
    rw [exBind_ok hsl]
    rfl
  have hrun : applyOverDims (fun slices => slices.head?) [A] [d]
      = assembleLevel d A' ((List.range n).map (fun s => some (iselCore A' d s))) := by
    rw [applyOverDims, exBind_ok hmap1]
    simp only []
    rw [exBind_ok hsizes]
    rw [applyHelper]
    rw [if_pos (by rfl)]
    rw [exBind_ok hresults]
    simp only [List.headD_cons]
  -- survivors
  obtain ⟨survM, hsurvM⟩ : ∃ x, (List.range n).map (fun s => iselCore A' d s) = x := ⟨_, rfl⟩
  have hsurvEq : ((List.range n).map (fun s => some (iselCore A' d s))).filterMap id
      = survM := by
    rw [← hsurvM, List.filterMap_map]
    exact filterMap_eq_map_of_some (fun s _ => rfl)
  have hs_dims : ∀ s : Nat, (iselCore A' d s).dims = rest := by
    intro s
    rw [iselCore_dims, hA'dims, hdims, List.indexOf_cons_self]
    rfl
  have hs_shape : ∀ s : Nat, (iselCore A' d s).shape = srest := by
    intro s
    rw [iselCore_shape, hA'dims, hA'shape, hdims, hshape, List.indexOf_cons_self]
    rfl
  have hs_attrs : ∀ s : Nat, (iselCore A' d s).attrs = A.attrs := by
    intro s
    rw [iselCore_attrs, hA'attrs]
  have hsurv_mem : ∀ p ∈ survM, ∃ s, s < n ∧ p = iselCore A' d s := by
    intro p hp
    rw [← hsurvM] at hp
    rcases List.mem_map.mp hp with ⟨s, hs, rfl⟩
    exact ⟨s, List.mem_range.mp hs, rfl⟩
  have hall_nodim : ∀ p ∈ survM, d ∉ p.dims := by
    intro p hp
    rcases hsurv_mem p hp with ⟨s, _, rfl⟩
    rw [hs_dims s]
    exact hdrest
  have hattrs_surv : ∀ p ∈ survM, p.attrs = A.attrs := by
    intro p hp
    rcases hsurv_mem p hp with ⟨s, _, rfl⟩
    exact hs_attrs s
  have hsurv_len : survM.length = n := by
    rw [← hsurvM, List.length_map, List.length_range]
  have hsurv_ne : survM ≠ [] := by
    intro h
    rw [h] at hsurv_len
    simp at hsurv_len
    omega
  have hs0 : survM.headD default = iselCore A' d 0 := by
    rw [← hsurvM]
    exact headD_map_range _ n default hn
  -- collect the attributes
  have hnodattrs_surv : ∀ a ∈ survM, (a.attrs.map (·.1)).Nodup := by
    intro a ha
    rw [hattrs_surv a ha]
    exact hattrkeys
  obtain ⟨L, hL⟩ : ∃ L, collectAttrsE d survM = .ok L := by
    rw [collectAttrsE]
    refine foldE_ok_of_ex ?_ []
    intro acc arr harr
    refine foldE_ok_of_ex ?_ acc
    intro acc2 kv hkv
    rw [hattrs_surv arr harr] at hkv
    exact ⟨addEntry acc2 kv.1 (expandOf d kv.2),
      exBind_ok (expandDimsE_eq (hattrs kv hkv).1)⟩
  have hLcoll := collectOuter d survM [] L hL hnodattrs_surv (by simp) (by simp)
  have hLnd := hLcoll.1
  have hLcount := hLcoll.2.2
  have hLsrc := collectOuter_src d survM [] L hL
  have hLne := collectOuter_ne d survM [] L hL (by simp)
  -- per-entry characterization of the collected lists
  have hLfact : ∀ kv ∈ L, ∃ v cv, (kv.1, v) ∈ A.attrs ∧ d ∉ v.dims ∧
      lookupCoord v d = none ∧ concatE kv.2 d = .ok cv ∧
      cv.dims = d :: v.dims ∧ cv.shape = n :: v.shape ∧
      (∀ i ridx, i < n → cv.data (i :: ridx) = v.data ridx) ∧
      cv.coords = v.coords ∧ cv.attrs = v.attrs := by
    intro kv hkv
    obtain ⟨x0, hx0⟩ : ∃ x, x ∈ kv.2 := List.exists_mem_of_ne_nil _ (hLne kv hkv)
    rcases hLsrc kv hkv x0 hx0 with ⟨q, hq, _, _⟩ | ⟨a, ha, v0, hv0, hev0⟩
    · exact absurd hq (by simp)
    have hv0A : (kv.1, v0) ∈ A.attrs := by
      rw [hattrs_surv a ha] at hv0
      exact hv0
    have hv0p := hattrs _ hv0A
    have helems : ∀ x ∈ kv.2, x = expandOf d v0 := by
      intro x hx
      rcases hLsrc kv hkv x hx with ⟨q, hq, _, _⟩ | ⟨a1, ha1, v1, hv1, hev1⟩
      · exact absurd hq (by simp)
      · have hv1A : (kv.1, v1) ∈ A.attrs := by
          rw [hattrs_surv a1 ha1] at hv1
          exact hv1
        have hv10 : v1 = v0 := pairs_val_eq_of_nodup_keys hattrkeys hv1A hv0A
        subst hv10
        rw [expandDimsE_eq hv0p.1] at hev1
        simp only [Except.ok.injEq] at hev1
        exact hev1.symm
    have hkvn : kv.2.length = n := by
      have h1 : keyLen L kv.1 = kv.2.length := by
        rw [keyLen, find?_pairs_nodup_self hLnd kv hkv]
        rfl
      have h2 := hLcount kv.1
      have hfilt : survM.filter (fun a => decide (kv.1 ∈ attrNames a)) = survM := by
        refine List.filter_eq_self.mpr ?_
        intro a ha
        simp only [decide_eq_true_eq, attrNames]
        rw [hattrs_surv a ha]
        exact List.mem_map_of_mem _ hv0A
      rw [h1, hfilt, hsurv_len] at h2
      simpa [keyLen] using h2
    rcases concatE_const_expanded hn hkvn helems hv0p.1 hv0p.2.2
      with ⟨cv, hcv, h1, h2, h3, h4, h5⟩
    exact ⟨v0, cv, hv0A, hv0p.1, hv0p.2.1, hcv, h1, h2, h3, h4, h5⟩
  -- concatenate the survivors: a new leading dimension d
  have hxarr0 := concatE_new_dim_ok hsurv_ne hall_nodim
  rw [hs0, hs_dims 0, hs_shape 0, iselCore_attrs, hA'attrs, hsurv_len] at hxarr0
  obtain ⟨xarr, hxarrEq⟩ : ∃ x, (DataArr.mk (d :: rest) (n :: srest)
      (fun idx => ((survM.getD (idx.headD 0) default).data) idx.tail)
      (concatCoords survM d) A.attrs) = x := ⟨_, rfl⟩
  rw [hxarrEq] at hxarr0
  have hxarr_dims : xarr.dims = d :: rest := by rw [← hxarrEq]; rfl
  have hxarr_shape : xarr.shape = n :: srest := by rw [← hxarrEq]; rfl
  have hxarr_coords : xarr.coords = concatCoords survM d := by rw [← hxarrEq]; rfl
  have hxarr_attrs : xarr.attrs = A.attrs := by rw [← hxarrEq]; rfl
  have hxarr_data : ∀ i ridx, i < n → (i :: ridx).length = A.dims.length →
      xarr.data (i :: ridx) = A.data (i :: ridx) := by
    intro i ridx hi hlen'
    rw [← hxarrEq]
    show (survM.getD ((i :: ridx).headD 0) default).data (i :: ridx).tail
      = A.data (i :: ridx)
    simp only [List.headD_cons, List.tail_cons]
    rw [← hsurvM, getD_map_range _ n i default hi, iselCore_data, hA'dims, hdims,
      List.indexOf_cons_self]
    show A'.data (i :: ridx) = A.data (i :: ridx)
    exact hA'data (i :: ridx) hlen'
  -- concatenate each attribute list
  have hcatt : mapE (fun kv => do
      let cv ← concatE kv.2 d
      Except.ok (kv.1, cv)) L
      = .ok (L.map (fun kv => (kv.1, (concatE kv.2 d).toOption.getD default))) := by
    refine mapE_ok_of_all_ok ?_
    intro kv hkv
    rcases hLfact kv hkv with ⟨v, cv, _, _, _, hcv, _⟩
    rw [exBind_ok hcv, hcv]
    rfl
  obtain ⟨cattrsV, hcattrsV⟩ : ∃ x,
      L.map (fun kv => (kv.1, (concatE kv.2 d).toOption.getD default)) = x := ⟨_, rfl⟩
  rw [hcattrsV] at hcatt
  -- look the level coordinate up and re-attach it
  have hlcA' : lookupCoord A' d = some cd := by
    rw [lookupCoord, hA'coords]
    exact hcd
  have hgc : getCoordE A' d = .ok cd := by
    rw [getCoordE, hlcA']
  have hset1 : setCoordE xarr d d cd.values = .ok (setCoordCore xarr d d cd.values) := by
    rw [setCoordE, if_pos (by rw [sizeOfDim_cons hxarr_dims hxarr_shape, hcdlen])]
  have hfoldsz : ∀ kv ∈ cattrsV, kv.2.sizeOfDim d = some cd.values.length := by
    intro kv hkv
    rw [← hcattrsV] at hkv
    rcases List.mem_map.mp hkv with ⟨kv0, hkv0, rfl⟩
    rcases hLfact kv0 hkv0 with ⟨v, cv, _, _, _, hcv, h1, h2, _⟩
    show ((concatE kv0.2 d).toOption.getD default).sizeOfDim d = some cd.values.length
    rw [hcv]
    show cv.sizeOfDim d = some cd.values.length
    rw [sizeOfDim_cons h1 h2, hcdlen]
  have hfold := foldE_setCoord_ok d cd.values cattrsV (setCoordCore xarr d d cd.values) hfoldsz
  -- run the reassembly
  have hasm : assembleLevel d A' ((List.range n).map (fun s => some (iselCore A' d s)))
      = .ok (some ((cattrsV.map (fun kv => (kv.1, setCoordCore kv.2 d d cd.values))).foldl
          (fun x kr => x.setAttr kr.1 kr.2) (setCoordCore xarr d d cd.values))) := by
    rw [assembleLevel]
    rw [hsurvEq]
    rw [exBind_ok hL]
    have hie : survM.isEmpty = false := by
      cases hsM : survM with
      | nil => exact absurd hsM hsurv_ne
      | cons a as => rfl
    rw [hie]
    rw [if_neg (by simp)]
    rw [exBind_ok hxarr0]
    rw [exBind_ok hcatt]
    rw [exBind_ok hgc]
    rw [exBind_ok hset1]
    rw [exBind_ok hfold]
  have hcdname : cd.name = d := by simpa using List.find?_some hcd
  have hcdmem : cd ∈ A.coords := List.mem_of_find?_eq_some hcd
  have hcdeq : ({ name := d, dims := [d], values := cd.values } : Coord) = cd := by
    rw [← hcddims, ← hcdname]
  have hcnames' : (A'.coords.map Coord.name).Nodup := by
    rw [hA'coords]
    exact hcnames
  have hkeyL : ∀ k v, (k, v) ∈ A.attrs → ∃ vs, (k, vs) ∈ L := by
    intro k v hkvA
    have hfilt : survM.filter (fun a => decide (k ∈ attrNames a)) = survM := by
      refine List.filter_eq_self.mpr ?_
      intro a ha
      simp only [decide_eq_true_eq, attrNames]
      rw [hattrs_surv a ha]
      exact List.mem_map_of_mem _ hkvA
    have h2 := hLcount k
    rw [hfilt, hsurv_len] at h2
    have hkl : keyLen L k = n := by simpa [keyLen] using h2
    cases hf : L.find? (fun p => p.1 = k) with
    | none =>
      rw [keyLen, hf] at hkl
      simp at hkl
      omega
    | some p =>
      have hp1 : p.1 = k := by simpa using List.find?_some hf
      have hpL : p ∈ L := List.mem_of_find?_eq_some hf
      exact ⟨p.2, by rw [← hp1]; exact hpL⟩
  refine ⟨_, by rw [hrun]; exact hasm, ?_, ?_, ?_, ?_, ?_, ?_⟩
  · -- B.dims = A.dims
    rw [foldl_setAttr_dims, setCoordCore_dims, hxarr_dims, hdims]
  · -- B.shape = A.shape
    rw [foldl_setAttr_shape, setCoordCore_shape, hxarr_shape, hshape]
  · -- B.data pointwise
    intro i ridx hi hl'
    rw [foldl_setAttr_data, setCoordCore_data]
    exact hxarr_data i ridx hi hl'
  · -- B.coords = A.coords
    rw [foldl_setAttr_coords, setCoordCore_coords, hxarr_coords, hcdeq]
    rw [concatCoords, hs0, iselCore_coords, hA'coords, List.filterMap_map]
    refine updateCoord_filterMap_restore A.coords _ cd hcnames ?_ hcdmem
    intro c hc
    simp only [Function.comp_apply]
    by_cases hdc : d ∈ c.dims
    · have hccd : c = cd :=
        nodup_map_inj_mem hcnames c hc cd hcdmem (by rw [honlyd c hc hdc, hcdname])
      subst hccd
      rw [if_pos hdc]
      apply concat_entry_slices
      · intro p hp
        rcases hsurv_mem p hp with ⟨s, _, rfl⟩
        rcases lookupCoord_iselCore_dim s hcnames'
          (show c ∈ A'.coords by rw [hA'coords]; exact hc) hdc with ⟨c', hl, hn', hd'⟩
        exact ⟨c', hl, hd'⟩
      · rfl
    · rw [if_neg hdc]
      have hb1 : survM.all (fun p => decide (lookupCoord p c.name = some c)) = true := by
        rw [List.all_eq_true]
        intro p hp
        rcases hsurv_mem p hp with ⟨s, _, rfl⟩
        simp only [decide_eq_true_eq]
        exact lookupCoord_iselCore_nodim s hcnames' (by rw [hA'coords]; exact hc) hdc
      rw [if_pos hb1]
      exact ⟨c, rfl, rfl, fun _ => rfl⟩
  · -- attribute names preserved
    have hkeysub : ∀ kr ∈ cattrsV.map (fun q => (q.1, setCoordCore q.2 d d cd.values)),
        kr.1 ∈ attrNames (setCoordCore xarr d d cd.values) := by
      intro kr hkr
      rcases List.mem_map.mp hkr with ⟨kv, hkv, rfl⟩
      rw [← hcattrsV] at hkv
      rcases List.mem_map.mp hkv with ⟨kv0, hkv0, rfl⟩
      rcases hLfact kv0 hkv0 with ⟨v, cv, hvA, _⟩
      simp only [attrNames]
      rw [setCoordCore_attrs, hxarr_attrs]
      exact List.mem_map_of_mem _ hvA
    rw [foldl_setAttr_names _ _ hkeysub]
    simp only [attrNames]
    rw [setCoordCore_attrs, hxarr_attrs]
  · -- each attribute expanded along d with the level coordinate attached
    intro kv hkvA
    obtain ⟨vs, hvsL⟩ := hkeyL kv.1 kv.2 hkvA
    rcases hLfact (kv.1, vs) hvsL with ⟨v0, cv, hv0A, hv0nd, hv0none, hcv, h1, h2, h3, h4, h5⟩
    have hv0v : v0 = kv.2 := pairs_val_eq_of_nodup_keys hattrkeys hv0A hkvA
    subst hv0v
    have hmemc : (kv.1, cv) ∈ cattrsV := by
      rw [← hcattrsV]
      have hm := List.mem_map_of_mem
        (fun q : String × List DataArr => (q.1, (concatE q.2 d).toOption.getD default)) hvsL
      simpa [hcv] using hm
    have hmemrs : (kv.1, setCoordCore cv d d cd.values)
        ∈ cattrsV.map (fun q => (q.1, setCoordCore q.2 d d cd.values)) := by
      have hm := List.mem_map_of_mem
        (fun q : String × DataArr => (q.1, setCoordCore q.2 d d cd.values)) hmemc
      simpa using hm
    have hrskeys : ((cattrsV.map (fun q => (q.1, setCoordCore q.2 d d cd.values))).map
        (·.1)).Nodup := by
      rw [List.map_map]
      have he1 : ((fun x : String × DataArr => x.1) ∘
          (fun q : String × DataArr => (q.1, setCoordCore q.2 d d cd.values)))
          = fun q : String × DataArr => q.1 := funext (fun q => rfl)
      rw [he1, ← hcattrsV, List.map_map]
      have he2 : ((fun x : String × DataArr => x.1) ∘
          (fun q : String × List DataArr => (q.1, (concatE q.2 d).toOption.getD default)))
          = fun q : String × List DataArr => q.1 := funext (fun q => rfl)
      rw [he2]
      exact hLnd
    refine ⟨setCoordCore cv d d cd.values,
      lookup_foldl_setAttr_mem _ _ _ hrskeys hmemrs _, ?_, ?_, ?_, ?_, ?_⟩
    · rw [setCoordCore_dims, h1]
    · rw [setCoordCore_shape, h2]
    · intro i ridx hi
      rw [setCoordCore_data]
      exact h3 i ridx hi
    · rw [setCoordCore_coords, h4, updateCoord_append_of_no_name]
      intro c hcmem
      exact no_name_of_lookupCoord_none hv0none c hcmem
    · rw [setCoordCore_attrs, h5]

/-- The concrete input refuting the spec's identity claim: a one-axis
tensor with an index coordinate and one scalar attribute tensor. -/
def exIdA : DataArr := .mk ["s"] [2] (fun idx => ((idx.headD 0 : Nat) : Int) + 7)
  [{ name := "s", dims := ["s"], values := [4, 9] }]
  [("a", .mk [] [] (fun _ => 5) [] [])]

/-- C2 (counterexample): running `apply_over_dims` with a callable that
returns its input slice unchanged over the only dimension of `exIdA`
succeeds, but the output's attribute `a` has gained the walked dimension
`s`: the attribute tree is not identical to the input's, refuting the
claim that the result is structurally identical. -/
theorem apply_over_dims_attr_tree_counterexample :
    ∃ B, applyOverDims (fun slices => slices.head?) [exIdA] ["s"] = .ok (some B) ∧
      (lookupAttr B "a").map DataArr.dims = some ["s"] ∧
      (lookupAttr exIdA "a").map DataArr.dims = some [] := by
  refine ⟨_, rfl, rfl, rfl⟩

/-- Witness for the amended C2 theorem at the concrete input `exIdA`. -/
theorem apply_over_dims_identity_expands_attrs_witness :
    ∃ B, applyOverDims (fun slices => slices.head?) [exIdA] ["s"] = .ok (some B) ∧
      B.dims = exIdA.dims ∧ B.shape = exIdA.shape ∧
      (∀ i ridx, i < 2 → (i :: ridx).length = exIdA.dims.length →
        B.data (i :: ridx) = exIdA.data (i :: ridx)) ∧
      B.coords = exIdA.coords ∧
      attrNames B = attrNames exIdA ∧
      (∀ kv ∈ exIdA.attrs, ∃ v', lookupAttr B kv.1 = some v' ∧
        v'.dims = "s" :: kv.2.dims ∧ v'.shape = 2 :: kv.2.shape ∧
        (∀ i ridx, i < 2 → v'.data (i :: ridx) = kv.2.data ridx) ∧
        v'.coords = kv.2.coords ++ [{ name := "s", dims := ["s"], values := [4, 9] }] ∧
        v'.attrs = kv.2.attrs) :=
  apply_over_dims_identity_expands_attrs exIdA "s" [] 2 []
    { name := "s", dims := ["s"], values := [4, 9] }
    (by decide) (by decide) (by decide) (by decide) (by decide) (by decide)
    (by decide) (by decide) (by decide) (by decide) (by decide) (by decide)
